import Mathlib

/-!
Verification of the krakenv parser, configuration and validation core.

This file gives a shallow embedding of the Go sources of the repository
(`internal/parser/types.go`, `internal/parser/lexer.go`,
`internal/parser/parser.go`, `internal/config/config.go`,
`internal/validator/validator.go`, `internal/validator/errors.go`) and
proves the behavioural claims of the specification against it.

Modelling conventions:
* Go strings are modelled as lists of runes (`List Char`).  All indices
  computed by the embedded code are rune indices; every delimiter the Go
  code searches for is ASCII, so these agree with Go's byte indices at
  each position the code slices.
* Functions from the Go standard library (`strings`, `strconv`) are
  modelled directly next to their uses; calls into third-party libraries
  (JSON/YAML deserialisation, regexp) and float formatting are modelled
  as parameters collected in an `Oracle` structure, so theorems about the
  validator quantify over every possible behaviour of those libraries.
* Some identifiers are shortened (for instance the Go type `Annotation`
  becomes `Annot`, and its field `Type` becomes `Ty`, which is a reserved
  word in Lean); each definition records the Go name it embeds.
-/

namespace Krakenv

/-- Go strings, modelled as lists of runes. -/
abbrev GoStr := List Char

/-- Shorthand turning a Lean string literal into a `GoStr`. -/
def gs (s : String) : GoStr := s.toList

/-- The backslash character. -/
def bslash : Char := Char.ofNat 92

/-- The single-quote character. -/
def squote : Char := Char.ofNat 39

/-- Model of Go `unicode.IsSpace`: ASCII whitespace, NEL, NBSP and the
Unicode space separators. -/
def isGoSpace (c : Char) : Bool :=
  let n := c.toNat
  n == 32 || n == 9 || n == 10 || n == 11 || n == 12 || n == 13 ||
  n == 0x85 || n == 0xA0 || n == 0x1680 ||
  (decide (0x2000 ≤ n) && decide (n ≤ 0x200A)) ||
  n == 0x2028 || n == 0x2029 || n == 0x202F || n == 0x205F || n == 0x3000

/-- Left half of Go `strings.TrimSpace`. -/
def goTrimL (l : GoStr) : GoStr := l.dropWhile isGoSpace

/-- Right half of Go `strings.TrimSpace`. -/
def goTrimR (l : GoStr) : GoStr := (l.reverse.dropWhile isGoSpace).reverse

/-- Model of Go `strings.TrimSpace`. -/
def goTrim (l : GoStr) : GoStr := goTrimR (goTrimL l)

/-- Model of Go `strings.HasPrefix s pre`. -/
def goHasPref (s pre : GoStr) : Bool := pre.isPrefixOf s

/-- Model of Go `strings.TrimPrefix s pre`. -/
def goDropPref (s pre : GoStr) : GoStr :=
  if pre.isPrefixOf s then s.drop pre.length else s

/-- Model of Go `strings.Index s sub`: index of the first occurrence of
the substring `sub` in `s`, or `none` for Go's `-1`. -/
def idxOfSub (sub : GoStr) : GoStr → Option Nat
  | [] => if sub = [] then some 0 else none
  | c :: t =>
    if sub.isPrefixOf (c :: t) then some 0 else (idxOfSub sub t).map (· + 1)

/-- Go `strings.Index s c` for a single-character pattern. -/
def idxOfChar (s : GoStr) (c : Char) : Option Nat := idxOfSub [c] s

/-- Model of Go `strings.Contains s sub`. -/
def goContains (s sub : GoStr) : Bool := (idxOfSub sub s).isSome

/-- Model of Go `strings.Join parts sep` (argument order swapped). -/
def goJoin (sep : GoStr) : List GoStr → GoStr
  | [] => []
  | [x] => x
  | x :: y :: t => x ++ sep ++ goJoin sep (y :: t)

/-! ### Go `strconv` -/

/-- Value of a non-empty all-digit string, the digit phase of Go
`strconv.ParseInt`/`ParseUint` in base 10 (base 10 admits no underscores
and no prefixes). -/
def digitsVal (l : GoStr) : Option Nat :=
  if l = [] then none
  else if l.all Char.isDigit then
    some (l.foldl (fun n c => n * 10 + (c.toNat - 48)) 0)
  else none

/-- Model of Go `strconv.ParseInt s 10 64` (also of `strconv.Atoi`, since
`int` is 64-bit on the supported targets): an optional sign, at least one
decimal digit, and a signed-64-bit range check.  `none` covers both of
Go's `ErrSyntax` and `ErrRange` failures. -/
def parseInt64 (s : GoStr) : Option Int :=
  let signed : Bool × GoStr :=
    match s with
    | '+' :: t => (false, t)
    | '-' :: t => (true, t)
    | _ => (false, s)
  match digitsVal signed.2 with
  | none => none
  | some m =>
    let v : Int := if signed.1 then -(m : Int) else (m : Int)
    if -(2 ^ 63) ≤ v ∧ v ≤ 2 ^ 63 - 1 then some v else none

/-- Decimal rendering of an integer, Go `fmt`'s `%d`. -/
def intToStr (i : Int) : GoStr :=
  if i < 0 then '-' :: gs (Nat.repr i.natAbs) else gs (Nat.repr i.natAbs)

/-- Hexadecimal digit (lower case), as used by Go `strconv.Quote`. -/
def hexDigit (d : Nat) : Char :=
  if d < 10 then Char.ofNat (48 + d) else Char.ofNat (87 + d)

/-- Quoting of one rune, after Go `strconv.Quote`: quote and backslash
get a backslash escape, printable runes are kept literally (for runes
at/above U+0080 we take Go `unicode.IsPrint` to hold, which is accurate
for every string this development evaluates), the named control escapes
follow, and remaining control characters use a `\x` escape. -/
def goQuoteChar (c : Char) : GoStr :=
  let n := c.toNat
  if c = '"' || c = bslash then [bslash, c]
  else if (decide (0x20 ≤ n) && decide (n ≤ 0x7E)) || decide (0x80 ≤ n) then [c]
  else if n == 7 then [bslash, 'a']
  else if n == 8 then [bslash, 'b']
  else if n == 12 then [bslash, 'f']
  else if n == 10 then [bslash, 'n']
  else if n == 13 then [bslash, 'r']
  else if n == 9 then [bslash, 't']
  else if n == 11 then [bslash, 'v']
  else [bslash, 'x', hexDigit (n / 16 % 16), hexDigit (n % 16)]

/-- Model of Go `strconv.Quote`, as used by `fmt`'s `%q` verb. -/
def goQuote (s : GoStr) : GoStr := '"' :: (s.map goQuoteChar).flatten ++ ['"']

/-- Model of Go `strings.ToLower` restricted to its ASCII action (the
only strings it is compared against in the source are ASCII). -/
def goToLower (s : GoStr) : GoStr :=
  s.map fun c =>
    if decide ('A' ≤ c) && decide (c ≤ 'Z') then Char.ofNat (c.toNat + 32) else c

/-- Byte length of a Go string (`len` builtin): total UTF-8 size. -/
def goLen (s : GoStr) : Nat := (s.map Char.utf8Size).sum

/-! ### `internal/parser/types.go` -/

/-- The Go enum `parser.VariableType`. -/
inductive VariableType where
  | TypeString
  | TypeInt
  | TypeNumeric
  | TypeBoolean
  | TypeEnum
  | TypeObject
deriving DecidableEq

/-- Go method `VariableType.String` (the `default` arm is dead: the six
constructors are exactly the values the parser produces). -/
def typeString : VariableType → GoStr
  | .TypeString => gs "string"
  | .TypeInt => gs "int"
  | .TypeNumeric => gs "numeric"
  | .TypeBoolean => gs "boolean"
  | .TypeEnum => gs "enum"
  | .TypeObject => gs "object"

/-- Go function `parser.ParseVariableType`. -/
def ParseVariableType (s : GoStr) : VariableType :=
  if s = gs "string" then .TypeString
  else if s = gs "int" then .TypeInt
  else if s = gs "numeric" then .TypeNumeric
  else if s = gs "boolean" then .TypeBoolean
  else if s = gs "enum" then .TypeEnum
  else if s = gs "object" then .TypeObject
  else .TypeString

/-- Go struct `parser.Constraint`. -/
structure Constraint where
  name : GoStr
  value : GoStr
deriving DecidableEq

/-- Go struct `parser.Annotation` (field `Ty` embeds the Go field
`Type`, a reserved word in Lean). -/
structure Annot where
  PromptText : GoStr
  Ty : VariableType
  Constraints : List Constraint
  IsOptional : Bool
  IsSecret : Bool
deriving DecidableEq

/-- Go method `Annotation.GetConstraint`: value of the first constraint
with the given name, or the empty string. -/
def GetConstraint (a : Annot) (name : GoStr) : GoStr :=
  match a.Constraints.find? (fun c => c.name == name) with
  | some c => c.value
  | none => []

/-- Go struct `parser.Variable` (field `Annot` embeds the Go field
`Annotation`). -/
structure Variable where
  Name : GoStr
  Value : GoStr
  Annot : Option Annot
  LineNumber : Nat
  IsSet : Bool
deriving DecidableEq

/-- Go struct `parser.Comment`. -/
structure Comment where
  Text : GoStr
  LineNumber : Nat
deriving DecidableEq

/-- Go struct `config.KrakenvConfig` (also `parser.KrakenvConfig`, whose
fields are copied verbatim from the former in `parseLines`). -/
structure KrakenvConfig where
  Environments : List GoStr
  Strict : Bool
  DistPath : GoStr
deriving DecidableEq

/-- Go struct `parser.EnvFile`. -/
structure EnvFile where
  Path : GoStr
  Variables : List Variable
  Config : Option KrakenvConfig
  Comments : List Comment
deriving DecidableEq

/-! ### `internal/parser/lexer.go` -/

/-- The compiled regular expression `^[A-Z][A-Z0-9_]*$`
(`variableNamePattern.MatchString`). -/
def variableNameOk (name : GoStr) : Bool :=
  match name with
  | [] => false
  | c :: t =>
    (decide ('A' ≤ c) && decide (c ≤ 'Z')) &&
    t.all fun d => (decide ('A' ≤ d) && decide (d ≤ 'Z')) || d.isDigit || d == '_'

/-- The Go error value `parser.ErrInvalidVariableName`. -/
def errInvalidVariableName : GoStr :=
  gs "variable name must start with uppercase letter and contain only uppercase letters, numbers, and underscores"

/-- Go function `parser.parseValue`: trims, then unwraps one layer of
matching double or single quotes (byte tests `s[0]`/`s[len(s)-1]` agree
with the rune tests used here because both quote characters are ASCII). -/
def parseValue (input : GoStr) : GoStr :=
  let s := goTrim input
  if s = [] then []
  else if decide (2 ≤ s.length) && (s.head? == some '"') && (s.getLast? == some '"') then
    (s.drop 1).dropLast
  else if decide (2 ≤ s.length) && (s.head? == some squote) && (s.getLast? == some squote) then
    (s.drop 1).dropLast
  else s

/-- The annotation marker searched for by the lexer (one space followed
by the prompt prefix). -/
def annMarker : GoStr := gs " #prompt:"

/-- Go function `parser.TokenizeLine`.  The success value is
`(name, value, annotationSubstring)`; the error value carries
`ErrInvalidVariableName` (in Go the accompanying outputs are the empty
strings). -/
def TokenizeLine (input : GoStr) : Except GoStr (GoStr × GoStr × GoStr) :=
  let line := goTrim input
  if line = [] then .ok ([], [], [])
  else if goHasPref line (gs "#") then .ok ([], [], [])
  else
    match idxOfChar line '=' with
    | none => .ok ([], [], [])
    | some eqIdx =>
      let name := goTrim (line.take eqIdx)
      if name = [] then .ok ([], [], [])
      else if !variableNameOk name then .error errInvalidVariableName
      else
        let rest := line.drop (eqIdx + 1)
        let pair : GoStr × GoStr :=
          match idxOfSub annMarker rest with
          | some i => (rest.take i, goTrim (rest.drop (i + 1)))
          | none => (rest, [])
        .ok (name, parseValue (goTrim pair.1), pair.2)

/-- Go function `parser.IsComment`. -/
def IsComment (line : GoStr) : Bool := goHasPref (goTrim line) (gs "#")

/-- Go function `parser.IsEmptyLine`. -/
def IsEmptyLine (line : GoStr) : Bool := goTrim line = []

/-- Go function `config.IsConfigLine` (identical to
`parser.IsKrakenvConfigLine`). -/
def IsConfigLine (line : GoStr) : Bool := goHasPref (goTrim line) (gs "#krakenv:")

/-- Go function `parser.IsAnnotationLine`. -/
def IsAnnotLine (line : GoStr) : Bool := goContains line annMarker

/-- Go function `parser.ExtractCommentText`. -/
def ExtractCommentText (line : GoStr) : GoStr :=
  let l := goTrim line
  if goHasPref l (gs "#") then goTrim (l.drop 1) else []

/-! ### `internal/config/config.go` -/

/-- Go function `config.DefaultConfig` (also
`parser.DefaultKrakenvConfig`). -/
def DefaultConfig : KrakenvConfig :=
  { Environments := [gs "local"], Strict := false, DistPath := gs ".env.dist" }

/-- Go function `config.ParseConfigLine`: strips `#krakenv:`, then
`strings.SplitN(content, "=", 2)`; both halves are trimmed. -/
def ParseConfigLine (input : GoStr) : GoStr × GoStr :=
  let line := goTrim input
  if !goHasPref line (gs "#krakenv:") then ([], [])
  else
    let content := line.drop (gs "#krakenv:").length
    match idxOfChar content '=' with
    | none => ([], [])
    | some i => (goTrim (content.take i), goTrim (content.drop (i + 1)))

/-- Loop body of Go `config.ParseConfig` (the `switch key` statement). -/
def applyConfigLine (cfg : KrakenvConfig) (line : GoStr) : KrakenvConfig :=
  let kv := ParseConfigLine line
  if kv.1 = [] then cfg
  else if kv.1 = gs "environments" then
    { cfg with
      Environments :=
        (kv.2.splitOn ',').foldl
          (fun acc env => let e := goTrim env; if e = [] then acc else acc ++ [e]) [] }
  else if kv.1 = gs "strict" then
    { cfg with Strict := kv.2 == gs "true" || kv.2 == gs "1" || kv.2 == gs "yes" }
  else if kv.1 = gs "distPath" then
    if kv.2 = [] then cfg else { cfg with DistPath := kv.2 }
  else cfg

/-- Go function `config.ParseConfig`. -/
def ParseConfig (lines : List GoStr) : KrakenvConfig :=
  lines.foldl applyConfigLine DefaultConfig

/-- Go function `config.FormatConfigLine`. -/
def FormatConfigLine (key value : GoStr) : GoStr :=
  gs "#krakenv:" ++ key ++ gs "=" ++ value

/-- Go function `config.FormatConfig`: note that it emits nothing for an
empty environments list, nothing for `Strict = false`, and never emits
`DistPath`. -/
def FormatConfig (cfg : KrakenvConfig) : List GoStr :=
  (if cfg.Environments ≠ [] then
    [FormatConfigLine (gs "environments") (goJoin (gs ",") cfg.Environments)]
   else []) ++
  (if cfg.Strict then [FormatConfigLine (gs "strict") (gs "true")] else [])

/-! ### `internal/parser/parser.go`: the annotation parser -/

/-- The Go map `parser.knownConstraints`. -/
def knownConstraints (name : GoStr) : Bool :=
  name == gs "min" || name == gs "max" || name == gs "minlen" ||
  name == gs "maxlen" || name == gs "pattern" || name == gs "options" ||
  name == gs "format" || name == gs "encoding"

/-- The three syntax errors of Go `parser.ParseAnnotation`, each wrapping
`ErrInvalidAnnotation`: missing `#prompt:` prefix, missing `|` separator,
missing type. -/
inductive AnnErr where
  | missingPrompt
  | missingPipe
  | missingType
deriving DecidableEq

/-- Loop body of Go `parser.ParseAnnotation` over the `;`-separated
elements after the type token: `optional`/`secret` flags, constraints
with a colon, everything else ignored. -/
def stepModifier (a : Annot) (input : GoStr) : Annot :=
  let part := goTrim input
  if part = [] then a
  else if part = gs "optional" then { a with IsOptional := true }
  else if part = gs "secret" then { a with IsSecret := true }
  else
    match idxOfChar part ':' with
    | none => a
    | some colonIdx =>
      let cname := goTrim (part.take colonIdx)
      let cvalue := goTrim (part.drop (colonIdx + 1))
      if knownConstraints cname then
        { a with Constraints := a.Constraints ++ [⟨cname, cvalue⟩] }
      else a

/-- Go `parser.ParseAnnotation` up to, and not including, the final
enum-with-empty-options fallback. -/
def parseAnnotCore (input : GoStr) : Except AnnErr Annot :=
  let s := goTrim input
  if !goHasPref s (gs "#prompt:") then .error .missingPrompt
  else
    let content := s.drop (gs "#prompt:").length
    match idxOfChar content '|' with
    | none => .error .missingPipe
    | some pipeIdx =>
      let rest := content.drop (pipeIdx + 1)
      match rest.splitOn ';' with
      | [] => .error .missingType
      | p0 :: parts =>
        if p0 = [] then .error .missingType
        else
          .ok (parts.foldl stepModifier
            { PromptText := goTrim (content.take pipeIdx)
              Ty := ParseVariableType (goTrim p0)
              Constraints := []
              IsOptional := false
              IsSecret := false })

/-- The final step of Go `parser.ParseAnnotation` (comment `FR-042`): an
enum whose `options` lookup is empty becomes a string. -/
def enumFallback (a : Annot) : Annot :=
  if a.Ty = .TypeEnum ∧ GetConstraint a (gs "options") = [] then
    { a with Ty := .TypeString }
  else a

/-- Go function `parser.ParseAnnotation`. -/
def ParseAnnot (input : GoStr) : Except AnnErr Annot :=
  (parseAnnotCore input).map enumFallback

/-- Go function `parser.FormatAnnotation`. -/
def FormatAnnot (a : Annot) : GoStr :=
  let parts : List GoStr :=
    [typeString a.Ty] ++
    a.Constraints.map (fun c => c.name ++ gs ":" ++ c.value) ++
    (if a.IsOptional then [gs "optional"] else []) ++
    (if a.IsSecret then [gs "secret"] else [])
  gs "#prompt:" ++ a.PromptText ++ gs "|" ++ goJoin (gs ";") parts

/-- Go function `parser.FormatVariable`. -/
def FormatVariable (v : Variable) (includeAnnot : Bool) : GoStr :=
  let line := v.Name ++ gs "=" ++ v.Value
  match includeAnnot, v.Annot with
  | true, some a => line ++ gs " " ++ FormatAnnot a
  | _, _ => line

/-! ### `internal/parser/parser.go`: document assembly -/

/-- The mutable state of the loop in Go `parseLines`: the `EnvFile`
fields under construction, the collected config lines, and the
`varPositions` map (a Go `map[string]int`, modelled as the association
list of its insertions; `lookupPos` is its lookup). -/
structure PState where
  Variables : List Variable
  Comments : List Comment
  configLines : List GoStr
  varPositions : List (GoStr × Nat)
deriving DecidableEq

/-- Lookup in the modelled `varPositions` map. -/
def lookupPos (ps : List (GoStr × Nat)) (name : GoStr) : Option Nat :=
  (ps.find? (fun p => p.1 == name)).map (·.2)

/-- Loop body of Go `parseLines` for one line (`lineNumber` is already
1-indexed). -/
def processLine (st : PState) (line : GoStr) (lineNumber : Nat) : PState :=
  if IsConfigLine line then { st with configLines := st.configLines ++ [line] }
  else if IsComment line && !IsAnnotLine line then
    let text := ExtractCommentText line
    if text = [] then st
    else { st with Comments := st.Comments ++ [⟨text, lineNumber⟩] }
  else if IsEmptyLine line then st
  else
    match TokenizeLine line with
    | .error _ => st
    | .ok (name, value, annStr) =>
      if name = [] then st
      else
        let ann : Option Annot :=
          if annStr = [] then none
          else
            match ParseAnnot annStr with
            | .error _ => none
            | .ok a => some a
        let v : Variable :=
          { Name := name
            Value := goTrim value
            Annot := ann
            LineNumber := lineNumber
            IsSet := !(value == []) || line.contains '=' }
        match lookupPos st.varPositions name with
        | some idx => { st with Variables := st.Variables.set idx v }
        | none =>
          { st with
            varPositions := st.varPositions ++ [(name, st.Variables.length)]
            Variables := st.Variables ++ [v] }

/-- The loop of Go `parseLines`; `n` counts the lines already consumed,
so line numbers are 1-indexed. -/
def processAux : List GoStr → Nat → PState → PState
  | [], _, st => st
  | l :: ls, n, st => processAux ls (n + 1) (processLine st l (n + 1))

/-- Go function `parser.parseLines` (its Go `error` result is always
`nil`; `ParseEnvFileContent` below carries the error channel). -/
def parseLines (lines : List GoStr) (path : GoStr) : EnvFile :=
  let st := processAux lines 0 ⟨[], [], [], []⟩
  { Path := path
    Variables := st.Variables
    Comments := st.Comments
    Config := if st.configLines = [] then none else some (ParseConfig st.configLines) }

/-- Go function `parser.ParseEnvFileContent`: splits on newlines and
delegates to `parseLines`, whose error is always `nil`. -/
def ParseEnvFileContent (content : GoStr) (path : GoStr) : Except GoStr EnvFile :=
  .ok (parseLines (content.splitOn (Char.ofNat 10)) path)

/-! ### `internal/validator` -/

/-- The Go enum `validator.ErrorType` (the constructor `ErrorAnnotSyn`
embeds Go's `ErrorAnnotationSyntax`). -/
inductive ErrorType where
  | ErrorMissingRequired
  | ErrorInvalidType
  | ErrorConstraintViolation
  | ErrorAnnotSyn
  | ErrorDuplicateVariable
deriving DecidableEq

/-- Go function `validator.getErrorType`: classification of a validation
error by substrings of its message. -/
def getErrorType (msg : GoStr) : ErrorType :=
  if goContains msg (gs "required") then .ErrorMissingRequired
  else if goContains msg (gs "not in allowed") || goContains msg (gs "does not match") then
    .ErrorConstraintViolation
  else .ErrorInvalidType

/-- The calls the validator makes into code outside this repository:
`encoding/json` and `yaml.v3` deserialisation (`none` means the value
deserialises, `some e` carries the library's error text), `regexp`
compilation, and `strconv.ParseFloat` with `fmt`'s `%v` float rendering.
Theorems below quantify over every oracle, so they hold for every
behaviour of those libraries. -/
structure Oracle where
  jsonErr : GoStr → Option GoStr
  yamlErr : GoStr → Option GoStr
  regexCompile : GoStr → Except GoStr (GoStr → Bool)
  parseFloat : GoStr → Option Float
  fmtFloat : Float → GoStr

/-- An oracle with every capability stubbed out, used to instantiate
theorems on concrete inputs whose validation never consults the
oracle. -/
def trivOracle : Oracle :=
  { jsonErr := fun _ => none
    yamlErr := fun _ => none
    regexCompile := fun _ => .error []
    parseFloat := fun _ => none
    fmtFloat := fun _ => [] }

/-- The Go map `validator.validBooleans`. -/
def validBooleans (s : GoStr) : Bool :=
  s == gs "true" || s == gs "false" || s == gs "yes" || s == gs "no" ||
  s == gs "1" || s == gs "0" || s == gs "on" || s == gs "off"

/-- Go function `validator.validateInt` (`some msg` models a non-nil
`error`). -/
def validateInt (value : GoStr) (ann : Annot) : Option GoStr :=
  if value = [] then some (gs "value is required")
  else
    match parseInt64 value with
    | none => some (gs "expected integer, got " ++ goQuote value)
    | some n =>
      let minStr := GetConstraint ann (gs "min")
      let minFail : Option GoStr :=
        if minStr ≠ [] then
          match parseInt64 minStr with
          | some lo =>
            if n < lo then
              some (gs "value " ++ intToStr n ++ gs " is below minimum " ++ intToStr lo)
            else none
          | none => none
        else none
      match minFail with
      | some e => some e
      | none =>
        let maxStr := GetConstraint ann (gs "max")
        if maxStr ≠ [] then
          match parseInt64 maxStr with
          | some hi =>
            if hi < n then
              some (gs "value " ++ intToStr n ++ gs " exceeds maximum " ++ intToStr hi)
            else none
          | none => none
        else none

/-- Go function `validator.validateNumeric`; float parsing and `%v`
rendering go through the oracle. -/
def validateNumeric (o : Oracle) (value : GoStr) (ann : Annot) : Option GoStr :=
  if value = [] then some (gs "value is required")
  else
    match o.parseFloat value with
    | none => some (gs "expected numeric, got " ++ goQuote value)
    | some n =>
      let minStr := GetConstraint ann (gs "min")
      let minFail : Option GoStr :=
        if minStr ≠ [] then
          match o.parseFloat minStr with
          | some lo =>
            if n < lo then
              some (gs "value " ++ o.fmtFloat n ++ gs " is below minimum " ++ o.fmtFloat lo)
            else none
          | none => none
        else none
      match minFail with
      | some e => some e
      | none =>
        let maxStr := GetConstraint ann (gs "max")
        if maxStr ≠ [] then
          match o.parseFloat maxStr with
          | some hi =>
            if hi < n then
              some (gs "value " ++ o.fmtFloat n ++ gs " exceeds maximum " ++ o.fmtFloat hi)
            else none
          | none => none
        else none

/-- Go function `validator.validateString` (`len` is the byte length;
`strconv.Atoi` coincides with `parseInt64`). -/
def validateString (o : Oracle) (value : GoStr) (ann : Annot) : Option GoStr :=
  let minlenStr := GetConstraint ann (gs "minlen")
  let minFail : Option GoStr :=
    if minlenStr ≠ [] then
      match parseInt64 minlenStr with
      | some lo =>
        if (goLen value : Int) < lo then
          some (gs "length " ++ intToStr (goLen value) ++ gs " is below minimum " ++ intToStr lo)
        else none
      | none => none
    else none
  match minFail with
  | some e => some e
  | none =>
    let maxlenStr := GetConstraint ann (gs "maxlen")
    let maxFail : Option GoStr :=
      if maxlenStr ≠ [] then
        match parseInt64 maxlenStr with
        | some hi =>
          if hi < (goLen value : Int) then
            some (gs "length " ++ intToStr (goLen value) ++ gs " exceeds maximum " ++ intToStr hi)
          else none
        | none => none
      else none
    match maxFail with
    | some e => some e
    | none =>
      let pat := GetConstraint ann (gs "pattern")
      if pat ≠ [] then
        match o.regexCompile pat with
        | .error e => some (gs "invalid pattern: " ++ e)
        | .ok re =>
          if !re value then
            some (gs "value " ++ goQuote value ++ gs " does not match pattern " ++ pat)
          else none
      else none

/-- Go function `validator.validateEnum`. -/
def validateEnum (value : GoStr) (ann : Annot) : Option GoStr :=
  if value = [] then some (gs "value is required for enum")
  else
    let optionsStr := GetConstraint ann (gs "options")
    if optionsStr = [] then some (gs "enum has no options defined")
    else
      if (optionsStr.splitOn ',').any (fun opt => goTrim opt == value) then none
      else some (gs "value " ++ goQuote value ++ gs " not in allowed options: " ++ optionsStr)

/-- Go function `validator.validateBoolean`. -/
def validateBoolean (value : GoStr) : Option GoStr :=
  if value = [] then some (gs "value is required for boolean")
  else if !validBooleans (goToLower value) then
    some (gs "invalid boolean value " ++ goQuote value ++
      gs " (use: true/false, yes/no, 1/0, on/off)")
  else none

/-- Go function `validator.validateObject`; deserialisation goes through
the oracle. -/
def validateObject (o : Oracle) (value : GoStr) (ann : Annot) : Option GoStr :=
  if value = [] then some (gs "value is required for object")
  else
    let fmt0 := GetConstraint ann (gs "format")
    let fmt := if fmt0 = [] then gs "json" else fmt0
    if fmt = gs "json" then
      match o.jsonErr value with
      | some e => some (gs "invalid JSON: " ++ e)
      | none => none
    else if fmt = gs "yaml" then
      match o.yamlErr value with
      | some e => some (gs "invalid YAML: " ++ e)
      | none => none
    else some (gs "unknown object format: " ++ fmt)

/-- Go function `validator.ValidateValue` (a `none` annotation models
Go's `nil` pointer; the switch's `default` arm is dead because the six
constructors are exhaustive). -/
def ValidateValue (o : Oracle) (value : GoStr) (ann : Option Annot) : Option GoStr :=
  match ann with
  | none => none
  | some a =>
    if value = [] ∧ a.IsOptional then none
    else
      match a.Ty with
      | .TypeInt => validateInt value a
      | .TypeNumeric => validateNumeric o value a
      | .TypeString => validateString o value a
      | .TypeEnum => validateEnum value a
      | .TypeBoolean => validateBoolean value
      | .TypeObject => validateObject o value a

/-! ### Serialisation of a parsed document

The round-trip claim re-serialises a document with `FormatVariable`
(annotations kept) and the config-line formatter `FormatConfig`, the
same per-line formatters `generator.WriteFile` uses, and parses the
resulting line sequence again. -/

/-- The lines of the re-serialised document: the formatted config block
followed by one formatted line per variable. -/
def serializeLines (doc : EnvFile) : List GoStr :=
  (match doc.Config with
   | some cfg => FormatConfig cfg
   | none => []) ++
  doc.Variables.map (fun v => FormatVariable v true)

/-- The user-facing data of a variable: name, value and annotation
(line numbers necessarily change under re-serialisation). -/
def varData (v : Variable) : GoStr × GoStr × Option Annot :=
  (v.Name, v.Value, v.Annot)

/-- Document equivalence of the round-trip claim: same variables (same
names, values, annotations, in the same order) and the same config. -/
def docEquiv (d1 d2 : EnvFile) : Prop :=
  d1.Variables.map varData = d2.Variables.map varData ∧ d1.Config = d2.Config

instance (d1 d2 : EnvFile) : Decidable (docEquiv d1 d2) := by
  unfold docEquiv; infer_instance

/-- No proper nonempty suffix of `m` overlaps a prefix of `m`; the
condition that makes "first occurrence" proofs over `v ++ m ++ t`
possible, and which holds for the annotation marker. -/
def noSelfOverlap (m : GoStr) : Prop :=
  ∀ k < m.length, 0 < k → m.drop k ≠ m.take (m.length - k)

instance (m : GoStr) : Decidable (noSelfOverlap m) := by
  unfold noSelfOverlap; infer_instance

/-- Whether an `Except` result is an error. -/
def isErr {ε α : Type} : Except ε α → Bool
  | .error _ => true
  | .ok _ => false

instance {ε α : Type} [DecidableEq ε] [DecidableEq α] : DecidableEq (Except ε α) := fun x y =>
  match x, y with
  | .error a, .error b => decidable_of_iff (a = b) (by simp)
  | .ok a, .ok b => decidable_of_iff (a = b) (by simp)
  | .error a, .ok b => isFalse (fun hc => Except.noConfusion hc)
  | .ok a, .error b => isFalse (fun hc => Except.noConfusion hc)

/-- The tokenizer-error condition of the specification, stated over the
trimmed line: non-empty, not a comment, an `=` is present, the trimmed
text before the first `=` is non-empty, and the name fails the
variable-name pattern. -/
def tokErrCond (input : GoStr) : Prop :=
  goTrim input ≠ [] ∧
  goHasPref (goTrim input) (gs "#") = false ∧
  (∃ i, idxOfChar (goTrim input) '=' = some i ∧
    goTrim ((goTrim input).take i) ≠ [] ∧
    variableNameOk (goTrim ((goTrim input).take i)) = false)

/-- The specification's non-variable cases for the tokenizer: empty
line, comment line, no `=`, or an empty trimmed name before the first
`=`. -/
def nonVarCase (input : GoStr) : Prop :=
  goTrim input = [] ∨
  goHasPref (goTrim input) (gs "#") = true ∨
  idxOfChar (goTrim input) '=' = none ∨
  (∃ i, idxOfChar (goTrim input) '=' = some i ∧ goTrim ((goTrim input).take i) = [])

/-- The annotation stored for a variable line: absent when no annotation
substring was captured or when its parse failed (the `parseLines` loop
body, restated). -/
def annOf (annStr : GoStr) : Option Annot :=
  if annStr = [] then none
  else
    match ParseAnnot annStr with
    | .error _ => none
    | .ok a => some a

/-- The `Variable` value constructed by the `parseLines` loop body for a
successfully tokenized line. -/
def builtVar (line name value annStr : GoStr) (lineNumber : Nat) : Variable :=
  { Name := name
    Value := goTrim value
    Annot := annOf annStr
    LineNumber := lineNumber
    IsSet := !(value == []) || line.contains '=' }

/-- Index of the first variable with the given name, the list-level
reading of the `varPositions` map. -/
def findName (vars : List Variable) (name : GoStr) : Option Nat :=
  match vars with
  | [] => none
  | v :: rest => if v.Name = name then some 0 else (findName rest name).map (· + 1)

/-- Well-formedness of an annotation as produced by `ParseAnnotation`:
trimmed `|`-free prompt text, known/trimmed/`;`-free constraints, and a
non-empty `options` lookup whenever the type is enum. -/
def WFAnn (a : Annot) : Prop :=
  goTrim a.PromptText = a.PromptText ∧
  '|' ∉ a.PromptText ∧
  (∀ c ∈ a.Constraints,
    knownConstraints c.name = true ∧ goTrim c.value = c.value ∧ ';' ∉ c.value) ∧
  (a.Ty = .TypeEnum → GetConstraint a (gs "options") ≠ [])

/-- Well-formedness of a variable as produced by `parseLines`: a valid
name, a trimmed value free of the annotation marker, and a well-formed
annotation if any. -/
def WFVar (v : Variable) : Prop :=
  variableNameOk v.Name = true ∧
  goTrim v.Value = v.Value ∧
  goContains v.Value annMarker = false ∧
  (∀ a, v.Annot = some a → WFAnn a)

/-- The loop invariant of `parseLines`: the `varPositions` map reads
back as first-index lookup over the variables, names are distinct, and
every stored variable is set and well-formed. -/
def PInv (st : PState) : Prop :=
  (∀ n, lookupPos st.varPositions n = findName st.Variables n) ∧
  (st.Variables.map Variable.Name).Nodup ∧
  (∀ v ∈ st.Variables, v.IsSet = true ∧ WFVar v)

/-- Specification-side restatement of `ParseConfig`, written from the
claim's wording: defaults first, then per recognized key with last write
winning; `environments` is comma-split, trimmed, empty elements dropped;
`strict` is an exact membership test in `true`/`1`/`yes`; `distPath` is
overwritten only by a non-empty value; unknown keys are ignored. -/
def configSpec (lines : List GoStr) : KrakenvConfig :=
  lines.foldl
    (fun cfg line =>
      let kv := ParseConfigLine line
      if kv.1 = gs "environments" then
        { cfg with
          Environments := ((kv.2.splitOn ',').map goTrim).filter (fun e => !e.isEmpty) }
      else if kv.1 = gs "strict" then
        { cfg with Strict := decide (kv.2 ∈ [gs "true", gs "1", gs "yes"]) }
      else if kv.1 = gs "distPath" then
        if kv.2 ≠ [] then { cfg with DistPath := kv.2 } else cfg
      else cfg)
    DefaultConfig

/-- The parts list of `FormatAnnot` (the Go slice `parts` of
`parser.FormatAnnotation`). -/
def fmtParts (a : Annot) : List GoStr :=
  [typeString a.Ty] ++
  a.Constraints.map (fun c => c.name ++ gs ":" ++ c.value) ++
  (if a.IsOptional then [gs "optional"] else []) ++
  (if a.IsSecret then [gs "secret"] else [])

/-- The annotation substring `TokenizeLine` recovers from a line
serialized by `FormatVariable _ true`. -/
def annStrOf (v : Variable) : GoStr :=
  match v.Annot with
  | some a => FormatAnnot a
  | none => []

/-! ### Helper lemmas: trimming -/

theorem goTrimL_suffix (l : GoStr) : goTrimL l <:+ l := List.dropWhile_suffix _

theorem goTrimR_pref (l : GoStr) : goTrimR l <+: l := by
  have h := List.dropWhile_suffix (l := l.reverse) isGoSpace
  have h2 := List.reverse_prefix.mpr h
  simpa [goTrimR] using h2

theorem goTrim_infix_self (l : GoStr) : goTrim l <:+: l :=
  ((goTrimR_pref (goTrimL l)).isInfix).trans (goTrimL_suffix l).isInfix

theorem goTrim_subset {c : Char} {l : GoStr} (h : c ∈ goTrim l) : c ∈ l :=
  (goTrim_infix_self l).subset h

theorem goTrimL_eq_self {l : GoStr}
    (h : ∀ c, l.head? = some c → isGoSpace c = false) : goTrimL l = l := by
  cases l with
  | nil => rfl
  | cons a t =>
    have := h a rfl
    simp [goTrimL, List.dropWhile_cons, this]

theorem goTrimR_eq_self {l : GoStr}
    (h : ∀ c, l.getLast? = some c → isGoSpace c = false) : goTrimR l = l := by
  have hrev : l.reverse.dropWhile isGoSpace = l.reverse := by
    cases hr : l.reverse with
    | nil => rfl
    | cons a t =>
      have ha : l.getLast? = some a := by
        have := List.head?_reverse l
        rw [hr] at this
        simpa using this.symm
      simp [List.dropWhile_cons, h a ha]
  simp [goTrimR, hrev]

theorem goTrim_eq_self {l : GoStr}
    (h1 : ∀ c, l.head? = some c → isGoSpace c = false)
    (h2 : ∀ c, l.getLast? = some c → isGoSpace c = false) : goTrim l = l := by
  rw [goTrim, goTrimL_eq_self h1, goTrimR_eq_self h2]

theorem goTrimL_length (l : GoStr) : (goTrimL l).length ≤ l.length :=
  (goTrimL_suffix l).length_le

theorem goTrimR_length (l : GoStr) : (goTrimR l).length ≤ l.length :=
  (goTrimR_pref l).length_le

theorem goTrimL_of_goTrim_eq_self {l : GoStr} (h : goTrim l = l) : goTrimL l = l := by
  have hlen : l.length ≤ (goTrimL l).length := by
    calc l.length = (goTrim l).length := by rw [h]
    _ = (goTrimR (goTrimL l)).length := rfl
    _ ≤ (goTrimL l).length := goTrimR_length _
  exact (goTrimL_suffix l).eq_of_length (le_antisymm (goTrimL_length l) hlen)

theorem goTrimR_of_goTrim_eq_self {l : GoStr} (h : goTrim l = l) : goTrimR l = l := by
  have hL := goTrimL_of_goTrim_eq_self h
  calc goTrimR l = goTrimR (goTrimL l) := by rw [hL]
  _ = goTrim l := rfl
  _ = l := h

theorem dropWhile_fix_head {p : Char → Bool} {a : Char} {t : GoStr}
    (h : List.dropWhile p (a :: t) = a :: t) : p a = false := by
  cases hx : p a with
  | false => rfl
  | true =>
    rw [List.dropWhile_cons, if_pos hx] at h
    have hlen := (List.dropWhile_sublist (l := t) p).length_le
    rw [h] at hlen
    simp at hlen

theorem head_not_space_of_trim_fix {l : GoStr} (h : goTrim l = l)
    {c : Char} (hc : l.head? = some c) : isGoSpace c = false := by
  have hL := goTrimL_of_goTrim_eq_self h
  cases l with
  | nil => simp at hc
  | cons a t =>
    have hac : a = c := by simpa using hc
    subst hac
    exact dropWhile_fix_head hL

theorem getLast_not_space_of_trim_fix {l : GoStr} (h : goTrim l = l)
    {c : Char} (hc : l.getLast? = some c) : isGoSpace c = false := by
  have hR := goTrimR_of_goTrim_eq_self h
  have hrevfix : List.dropWhile isGoSpace l.reverse = l.reverse := by
    have h1 : (List.dropWhile isGoSpace l.reverse).reverse = l := hR
    calc List.dropWhile isGoSpace l.reverse
        = ((List.dropWhile isGoSpace l.reverse).reverse).reverse := by simp
    _ = l.reverse := by rw [h1]
  have hc2 : l.reverse.head? = some c := by rw [List.head?_reverse]; exact hc
  cases hr : l.reverse with
  | nil => rw [hr] at hc2; simp at hc2
  | cons a t =>
    rw [hr] at hc2 hrevfix
    have hac : a = c := by simpa using hc2
    subst hac
    exact dropWhile_fix_head hrevfix

theorem head?_of_pref {y x : GoStr} (h : y <+: x) {c : Char}
    (hc : y.head? = some c) : x.head? = some c := by
  obtain ⟨r, rfl⟩ := h
  cases y with
  | nil => simp at hc
  | cons a t => simpa using hc

theorem head_goTrimL_not_space {l : GoStr} {c : Char}
    (h : (goTrimL l).head? = some c) : isGoSpace c = false := by
  induction l with
  | nil => simp [goTrimL] at h
  | cons a t ih =>
    rw [goTrimL, List.dropWhile_cons] at h
    by_cases hp : isGoSpace a = true
    · rw [if_pos hp] at h
      exact ih h
    · rw [if_neg hp] at h
      have hac : a = c := by simpa using h
      subst hac
      cases hx : isGoSpace a with
      | false => rfl
      | true => exact absurd hx hp

theorem getLast_goTrimR_not_space {l : GoStr} {c : Char}
    (h : (goTrimR l).getLast? = some c) : isGoSpace c = false := by
  rw [goTrimR, List.getLast?_reverse] at h
  exact head_goTrimL_not_space (l := l.reverse) h

theorem goTrim_idem (l : GoStr) : goTrim (goTrim l) = goTrim l := by
  apply goTrim_eq_self
  · intro c hc
    exact head_goTrimL_not_space (head?_of_pref (goTrimR_pref (goTrimL l)) hc)
  · intro c hc
    exact getLast_goTrimR_not_space hc

/-! ### Helper lemmas: substring search -/

theorem idxOfSub_cons (sub : GoStr) (c : Char) (t : GoStr) :
    idxOfSub sub (c :: t) =
      if sub.isPrefixOf (c :: t) then some 0 else (idxOfSub sub t).map (· + 1) := rfl

theorem idxOfSub_of_pref {sub s : GoStr} (hm : sub ≠ []) (h : sub.isPrefixOf s = true) :
    idxOfSub sub s = some 0 := by
  cases s with
  | nil =>
    rw [List.isPrefixOf_iff_prefix] at h
    exact absurd (List.prefix_nil.mp h) hm
  | cons c t => rw [idxOfSub_cons, if_pos h]

theorem idxOfSub_pref {sub s : GoStr} {i : Nat} (h : idxOfSub sub s = some i) :
    sub.isPrefixOf (s.drop i) = true := by
  induction s generalizing i with
  | nil =>
    by_cases hs : sub = []
    · subst hs
      simp [idxOfSub] at h
      subst h
      simp [List.isPrefixOf]
    · simp [idxOfSub, hs] at h
  | cons c t ih =>
    rw [idxOfSub_cons] at h
    by_cases hp : sub.isPrefixOf (c :: t) = true
    · rw [if_pos hp] at h
      have : i = 0 := by simpa using h.symm
      subst this
      simpa using hp
    · rw [if_neg hp] at h
      obtain ⟨j, hj, rfl⟩ : ∃ j, idxOfSub sub t = some j ∧ i = j + 1 := by
        cases hx : idxOfSub sub t with
        | none => rw [hx] at h; simp at h
        | some j => rw [hx] at h; simp at h; exact ⟨j, rfl, h.symm⟩
      simpa using ih hj

theorem idxOfSub_min {sub s : GoStr} {i : Nat} (h : idxOfSub sub s = some i) :
    ∀ j, j < i → sub.isPrefixOf (s.drop j) = false := by
  induction s generalizing i with
  | nil =>
    by_cases hs : sub = []
    · subst hs
      simp [idxOfSub] at h
      omega
    · simp [idxOfSub, hs] at h
  | cons c t ih =>
    rw [idxOfSub_cons] at h
    by_cases hp : sub.isPrefixOf (c :: t) = true
    · rw [if_pos hp] at h
      have : i = 0 := by simpa using h.symm
      subst this
      omega
    · rw [if_neg hp] at h
      obtain ⟨j0, hj0, rfl⟩ : ∃ j0, idxOfSub sub t = some j0 ∧ i = j0 + 1 := by
        cases hx : idxOfSub sub t with
        | none => rw [hx] at h; simp at h
        | some j0 => rw [hx] at h; simp at h; exact ⟨j0, rfl, h.symm⟩
      intro j hj
      cases j with
      | zero =>
        simpa using (Bool.eq_false_iff.mpr (fun hx => hp hx))
      | succ k =>
        have hk : k < j0 := by omega
        simpa using ih hj0 k hk

theorem idxOfSub_none {sub s : GoStr} (h : idxOfSub sub s = none) :
    ∀ j, sub.isPrefixOf (s.drop j) = false := by
  induction s with
  | nil =>
    by_cases hs : sub = []
    · simp [idxOfSub, hs] at h
    · intro j
      rw [List.drop_nil]
      cases hx : sub.isPrefixOf ([] : GoStr) with
      | false => rfl
      | true =>
        rw [List.isPrefixOf_iff_prefix] at hx
        exact absurd (List.prefix_nil.mp hx) hs
  | cons c t ih =>
    rw [idxOfSub_cons] at h
    by_cases hp : sub.isPrefixOf (c :: t) = true
    · rw [if_pos hp] at h; simp at h
    · rw [if_neg hp] at h
      have ht : idxOfSub sub t = none := by
        cases hx : idxOfSub sub t with
        | none => rfl
        | some j => rw [hx] at h; simp at h
      intro j
      cases j with
      | zero => simpa using (Bool.eq_false_iff.mpr (fun hx => hp hx))
      | succ k => simpa using ih ht k

theorem goContains_iff {s sub : GoStr} : goContains s sub = true ↔ sub <:+: s := by
  constructor
  · intro h
    rw [goContains, Option.isSome_iff_exists] at h
    obtain ⟨i, hi⟩ := h
    have hp := idxOfSub_pref hi
    rw [List.isPrefixOf_iff_prefix] at hp
    exact hp.isInfix.trans (List.drop_suffix i s).isInfix
  · intro h
    obtain ⟨a, b, hab⟩ : ∃ a b, a ++ sub ++ b = s := h
    rw [goContains]
    cases hx : idxOfSub sub s with
    | some i => simp
    | none =>
      exfalso
      have hthis := idxOfSub_none hx a.length
      rw [← hab, List.append_assoc, List.drop_left] at hthis
      have h2 : sub.isPrefixOf (sub ++ b) = true :=
        List.isPrefixOf_iff_prefix.mpr (List.prefix_append sub b)
      rw [h2] at hthis
      simp at hthis

theorem goContains_false {s sub : GoStr} (h : goContains s sub = false) :
    ∀ j, sub.isPrefixOf (s.drop j) = false := by
  apply idxOfSub_none
  rw [goContains] at h
  cases hx : idxOfSub sub s with
  | none => rfl
  | some i => rw [hx] at h; simp at h

theorem goContains_false_mono {s t sub : GoStr} (hst : t <:+: s)
    (h : goContains s sub = false) : goContains t sub = false := by
  cases hx : goContains t sub with
  | false => rfl
  | true =>
    have := (goContains_iff.mp hx).trans hst
    rw [goContains_iff.mpr this] at h
    simp at h

theorem pref_append_cases {m a b : GoStr} (h : m.isPrefixOf (a ++ b) = true) :
    m <+: a ∨ (a <+: m ∧ m.drop a.length <+: b) := by
  rw [List.isPrefixOf_iff_prefix] at h
  by_cases hle : m.length ≤ a.length
  · left
    have h1 : m = (a ++ b).take m.length := List.prefix_iff_eq_take.mp h
    rw [List.take_append_of_le_length hle] at h1
    rw [h1]
    exact List.take_prefix _ _
  · right
    have ha : a <+: m :=
      List.prefix_of_prefix_length_le (List.prefix_append a b) h (by omega)
    refine ⟨ha, ?_⟩
    obtain ⟨t, rfl⟩ := ha
    obtain ⟨r, hr⟩ := h
    rw [List.append_assoc] at hr
    have hb : b = t ++ r := (List.append_cancel_left hr).symm
    rw [List.drop_left, hb]
    exact ⟨r, rfl⟩

theorem idxOfSub_marker {v m t : GoStr} (hm : m ≠ [])
    (hv : goContains v m = false) (hno : noSelfOverlap m) :
    idxOfSub m (v ++ m ++ t) = some v.length := by
  induction v with
  | nil =>
    simp only [List.nil_append, List.length_nil]
    apply idxOfSub_of_pref hm
    rw [List.isPrefixOf_iff_prefix]
    exact List.prefix_append m t
  | cons c v ih =>
    have hv2 : goContains v m = false :=
      goContains_false_mono (List.infix_cons (List.infix_refl v)) hv
    have hnp : m.isPrefixOf (c :: v ++ m ++ t) = false := by
      cases hx : m.isPrefixOf (c :: v ++ m ++ t) with
      | false => rfl
      | true =>
        exfalso
        rw [show c :: v ++ m ++ t = (c :: v) ++ (m ++ t) by simp] at hx
        rcases pref_append_cases hx with hcase | ⟨hpre, hdrop⟩
        · have : goContains (c :: v) m = true := goContains_iff.mpr hcase.isInfix
          rw [this] at hv; simp at hv
        · by_cases heq : m.length = (c :: v).length
          · have hm2 : m = c :: v := hpre.eq_of_length (by omega) |>.symm
            have : goContains (c :: v) m = true := by
              rw [hm2]; exact goContains_iff.mpr (List.infix_refl _)
            rw [this] at hv; simp at hv
          · have hlt : (c :: v).length < m.length := by
              have := hpre.length_le; omega
            have hdl : (m.drop (c :: v).length).length = m.length - (c :: v).length := by
              simp
            have h1 : m.drop (c :: v).length = (m ++ t).take (m.length - (c :: v).length) := by
              have := List.prefix_iff_eq_take.mp hdrop
              rw [hdl] at this
              exact this
            rw [List.take_append_of_le_length (by omega)] at h1
            exact hno (c :: v).length hlt (by simp) h1
    have hxeq : (c :: v : GoStr) ++ m ++ t = c :: (v ++ m ++ t) := by simp
    rw [hxeq] at hnp
    rw [hxeq, idxOfSub_cons, if_neg (by rw [hnp]; simp), ih hv2]
    simp

theorem goContains_single {a : GoStr} {c : Char} : goContains a [c] = true ↔ c ∈ a := by
  rw [goContains_iff]
  constructor
  · intro h
    exact h.subset (by simp)
  · intro h
    obtain ⟨s, t, rfl⟩ := List.append_of_mem h
    exact ⟨s, t, by simp⟩

theorem goContains_single_false {a : GoStr} {c : Char} (h : c ∉ a) :
    goContains a [c] = false := by
  cases hx : goContains a [c] with
  | false => rfl
  | true => exact absurd (goContains_single.mp hx) h

theorem idxOfChar_append {a b : GoStr} {c : Char} (h : c ∉ a) :
    idxOfChar (a ++ c :: b) c = some a.length := by
  have := idxOfSub_marker (m := [c]) (v := a) (t := b) (by simp)
    (goContains_single_false h) (fun k hk1 hk2 => by simp at hk1; omega)
  simpa [idxOfChar] using this

theorem mem_of_idxOfChar {s : GoStr} {c : Char} {i : Nat}
    (h : idxOfChar s c = some i) : c ∈ s := by
  have hp := @idxOfSub_pref [c] s i h
  rw [List.isPrefixOf_iff_prefix] at hp
  exact List.drop_subset i s (hp.subset (by simp))

theorem idxOfChar_none_iff {s : GoStr} {c : Char} : idxOfChar s c = none ↔ c ∉ s := by
  constructor
  · intro h hmem
    have hc : goContains s [c] = true := goContains_single.mpr hmem
    rw [goContains] at hc
    rw [idxOfChar] at h
    rw [h] at hc
    simp at hc
  · intro h
    cases hx : idxOfChar s c with
    | none => rfl
    | some i => exact absurd (mem_of_idxOfChar hx) h

theorem not_mem_take_of_idxOfChar {s : GoStr} {c : Char} {i : Nat}
    (h : idxOfChar s c = some i) : c ∉ s.take i := by
  intro hmem
  obtain ⟨u, w, huw⟩ := List.append_of_mem hmem
  have hlt : u.length < i := by
    have h1 : (s.take i).length ≤ i := by simp
    have h2 : u.length < (s.take i).length := by rw [huw]; simp
    omega
  have key : ∀ r, s = u ++ c :: r → False := by
    intro r hs
    have hmin := @idxOfSub_min [c] s i h u.length hlt
    rw [hs, List.drop_left u (c :: r)] at hmin
    simp [List.isPrefixOf] at hmin
  apply key (w ++ s.drop i)
  conv_lhs => rw [← List.take_append_drop i s]
  rw [huw]
  simp

/-! ### Helper lemmas: character classes -/

theorem isGoSpace_eq_false_of_bounds {c : Char} (h1 : 33 ≤ c.toNat)
    (h2 : c.toNat ≤ 127) : isGoSpace c = false := by
  unfold isGoSpace
  simp only [Bool.or_eq_false_iff, beq_eq_false_iff_ne, ne_eq,
    Bool.and_eq_false_iff, decide_eq_false_iff_not]
  omega

/-- Characters admitted by the variable-name pattern lie in the visible
ASCII range and are neither `=` nor `#` nor a quote character. -/
theorem nameOk_chars {n : GoStr} (h : variableNameOk n = true) :
    ∀ c ∈ n, (65 ≤ c.toNat ∧ c.toNat ≤ 90) ∨ (48 ≤ c.toNat ∧ c.toNat ≤ 57) ∨ c.toNat = 95 := by
  match n, h with
  | c0 :: t, h =>
    rw [variableNameOk] at h
    simp only [Bool.and_eq_true, List.all_eq_true] at h
    intro c hc
    rcases List.mem_cons.mp hc with rfl | hct
    · left
      obtain ⟨⟨h1, h2⟩, _⟩ := h
      rw [decide_eq_true_iff] at h1 h2
      constructor
      · simpa [Char.le_def] using h1
      · simpa [Char.le_def] using h2
    · have := h.2 c hct
      simp only [Bool.or_eq_true, Bool.and_eq_true, decide_eq_true_iff, beq_iff_eq] at this
      rcases this with (⟨h1, h2⟩ | hd) | rfl
      · exact Or.inl ⟨by simpa [Char.le_def] using h1, by simpa [Char.le_def] using h2⟩
      · right; left
        simpa [Char.isDigit] using hd
      · right; right; decide

theorem nameOk_ne_nil {n : GoStr} (h : variableNameOk n = true) : n ≠ [] := by
  cases n with
  | nil => simp [variableNameOk] at h
  | cons c t => simp

theorem nameOk_not_space {n : GoStr} (h : variableNameOk n = true) :
    ∀ c ∈ n, isGoSpace c = false := by
  intro c hc
  have := nameOk_chars h c hc
  apply isGoSpace_eq_false_of_bounds <;> omega

theorem nameOk_ne_eq {n : GoStr} (h : variableNameOk n = true) : '=' ∉ n := by
  intro hc
  have := nameOk_chars h _ hc
  have h61 : ('=' : Char).toNat = 61 := by decide
  omega

theorem nameOk_trim {n : GoStr} (h : variableNameOk n = true) : goTrim n = n := by
  apply goTrim_eq_self
  · intro c hc
    exact nameOk_not_space h c (by
      cases n with
      | nil => simp at hc
      | cons a t =>
        have : a = c := by simpa using hc
        subst this
        simp)
  · intro c hc
    exact nameOk_not_space h c (List.mem_of_mem_getLast? hc)

/-! ### Helper lemmas: splitting and joining -/

theorem splitOn_cons (x : Char) (t : GoStr) (c : Char) :
    (x :: t).splitOn c =
      if x == c then [] :: t.splitOn c else (t.splitOn c).modifyHead (x :: ·) := by
  simp [List.splitOn, List.splitOnP_cons]

theorem splitOn_ne_nil (c : Char) (l : GoStr) : l.splitOn c ≠ [] :=
  List.splitOnP_ne_nil _ l

theorem splitOn_no_sep {c : Char} {l : GoStr} (h : c ∉ l) : l.splitOn c = [l] := by
  rw [List.splitOn]
  apply List.splitOnP_eq_single
  intro x hx
  simp only [beq_iff_eq]
  intro he
  subst he
  exact h hx

theorem splitOn_pieces {c : Char} {l : GoStr} : ∀ p ∈ l.splitOn c, c ∉ p := by
  induction l with
  | nil =>
    intro p hp
    simp [List.splitOn] at hp
    subst hp
    simp
  | cons x t ih =>
    intro p hp
    rw [splitOn_cons] at hp
    by_cases hx : (x == c) = true
    · rw [if_pos hx] at hp
      rcases List.mem_cons.mp hp with rfl | hrest
      · simp
      · exact ih p hrest
    · rw [if_neg hx] at hp
      cases hsp : t.splitOn c with
      | nil => exact absurd hsp (splitOn_ne_nil c t)
      | cons q qs =>
        rw [hsp] at hp
        simp only [List.modifyHead] at hp
        rcases List.mem_cons.mp hp with rfl | hrest
        · intro hmem
          rcases List.mem_cons.mp hmem with rfl | hq
          · simp at hx
          · exact ih q (by rw [hsp]; simp) hq
        · exact ih p (by rw [hsp]; simp [hrest])

theorem splitOn_goJoin {c : Char} {parts : List GoStr}
    (h : ∀ p ∈ parts, c ∉ p) (hne : parts ≠ []) :
    (goJoin [c] parts).splitOn c = parts := by
  induction parts with
  | nil => exact absurd rfl hne
  | cons p rest ih =>
    cases rest with
    | nil =>
      rw [goJoin]
      exact splitOn_no_sep (h p (by simp))
    | cons q rest2 =>
      have hjoin : goJoin [c] (p :: q :: rest2) = p ++ c :: goJoin [c] (q :: rest2) := by
        rw [goJoin]
        simp
      have hnosep : ∀ x ∈ p, ¬((fun y => y == c) x = true) := by
        intro x hx
        simp only [beq_iff_eq]
        intro he
        subst he
        exact h p (by simp) hx
      rw [hjoin]
      calc List.splitOn c (p ++ c :: goJoin [c] (q :: rest2))
          = p :: List.splitOn c (goJoin [c] (q :: rest2)) := by
            simp only [List.splitOn]
            exact List.splitOnP_first (fun y => y == c) p hnosep c (by simp) _
      _ = p :: (q :: rest2) := by
            rw [ih (fun x hx => h x (by simp [hx])) (by simp)]

/-! ### Helper lemmas: computation laws for `TokenizeLine` -/

theorem tok_empty {input : GoStr} (h : goTrim input = []) :
    TokenizeLine input = .ok ([], [], []) := by
  unfold TokenizeLine
  rw [if_pos h]

theorem tok_comment {input : GoStr} (h0 : goTrim input ≠ [])
    (h1 : goHasPref (goTrim input) (gs "#") = true) :
    TokenizeLine input = .ok ([], [], []) := by
  unfold TokenizeLine
  rw [if_neg h0, if_pos h1]

theorem tok_no_eq {input : GoStr} (h0 : goTrim input ≠ [])
    (h1 : goHasPref (goTrim input) (gs "#") = false)
    (h2 : idxOfChar (goTrim input) '=' = none) :
    TokenizeLine input = .ok ([], [], []) := by
  unfold TokenizeLine
  rw [if_neg h0, if_neg (by rw [h1]; simp), h2]

theorem tok_empty_name {input : GoStr} {i : Nat} (h0 : goTrim input ≠ [])
    (h1 : goHasPref (goTrim input) (gs "#") = false)
    (h2 : idxOfChar (goTrim input) '=' = some i)
    (h3 : goTrim ((goTrim input).take i) = []) :
    TokenizeLine input = .ok ([], [], []) := by
  unfold TokenizeLine
  rw [if_neg h0, if_neg (by rw [h1]; simp), h2]
  simp only [h3]
  simp

theorem tok_bad_name {input : GoStr} {i : Nat} (h0 : goTrim input ≠ [])
    (h1 : goHasPref (goTrim input) (gs "#") = false)
    (h2 : idxOfChar (goTrim input) '=' = some i)
    (h3 : goTrim ((goTrim input).take i) ≠ [])
    (h4 : variableNameOk (goTrim ((goTrim input).take i)) = false) :
    TokenizeLine input = .error errInvalidVariableName := by
  unfold TokenizeLine
  rw [if_neg h0, if_neg (by rw [h1]; simp), h2]
  simp only []
  rw [if_neg h3, if_pos (by rw [h4]; rfl)]

theorem tok_good {input : GoStr} {i : Nat} (h0 : goTrim input ≠ [])
    (h1 : goHasPref (goTrim input) (gs "#") = false)
    (h2 : idxOfChar (goTrim input) '=' = some i)
    (h4 : variableNameOk (goTrim ((goTrim input).take i)) = true) :
    TokenizeLine input =
      (let rest := (goTrim input).drop (i + 1)
       let pair : GoStr × GoStr :=
         match idxOfSub annMarker rest with
         | some j => (rest.take j, goTrim (rest.drop (j + 1)))
         | none => (rest, [])
       .ok (goTrim ((goTrim input).take i), parseValue (goTrim pair.1), pair.2)) := by
  have h3 : goTrim ((goTrim input).take i) ≠ [] := by
    intro hnil
    rw [hnil] at h4
    simp [variableNameOk] at h4
  unfold TokenizeLine
  rw [if_neg h0, if_neg (by rw [h1]; simp), h2]
  simp only []
  rw [if_neg h3, if_neg (by rw [h4]; simp)]

theorem envFold_eq (xs : List GoStr) (acc : List GoStr) :
    xs.foldl (fun acc env => let e := goTrim env; if e = [] then acc else acc ++ [e]) acc
      = acc ++ (xs.map goTrim).filter (fun e => !e.isEmpty) := by
  induction xs generalizing acc with
  | nil => simp
  | cons x t ih =>
    rw [List.foldl_cons, ih]
    by_cases hx : goTrim x = []
    · simp [hx]
    · simp only [hx, if_neg]
      rw [List.map_cons, List.filter_cons]
      have : (!(goTrim x).isEmpty) = true := by
        cases hg : goTrim x with
        | nil => exact absurd hg hx
        | cons a b => simp
      rw [this]
      simp

/-! ### Helper lemmas: computation laws for the annotation parser -/

theorem annotCore_no_prompt {s : GoStr}
    (h : goHasPref (goTrim s) (gs "#prompt:") = false) :
    parseAnnotCore s = .error .missingPrompt := by
  unfold parseAnnotCore
  rw [if_pos (by rw [h]; rfl)]

theorem annotCore_no_pipe {s : GoStr}
    (h : goHasPref (goTrim s) (gs "#prompt:") = true)
    (h2 : idxOfChar ((goTrim s).drop (gs "#prompt:").length) '|' = none) :
    parseAnnotCore s = .error .missingPipe := by
  unfold parseAnnotCore
  rw [if_neg (by rw [h]; simp)]
  dsimp only []
  rw [h2]

theorem annotCore_pipe {s : GoStr} {i : Nat}
    (h : goHasPref (goTrim s) (gs "#prompt:") = true)
    (h2 : idxOfChar ((goTrim s).drop (gs "#prompt:").length) '|' = some i) :
    parseAnnotCore s =
      (match (((goTrim s).drop (gs "#prompt:").length).drop (i + 1)).splitOn ';' with
       | [] => .error .missingType
       | p0 :: parts =>
         if p0 = [] then .error .missingType
         else
           .ok (parts.foldl stepModifier
             { PromptText := goTrim (((goTrim s).drop (gs "#prompt:").length).take i)
               Ty := ParseVariableType (goTrim p0)
               Constraints := []
               IsOptional := false
               IsSecret := false })) := by
  unfold parseAnnotCore
  rw [if_neg (by rw [h]; simp)]
  dsimp only []
  rw [h2]

theorem parseAnnot_error_iff {s : GoStr} {e : AnnErr} :
    ParseAnnot s = .error e ↔ parseAnnotCore s = .error e := by
  rw [ParseAnnot]
  cases hx : parseAnnotCore s with
  | error e2 => simp [Except.map]
  | ok a => simp [Except.map]

/-! ### Helper lemmas: validator error messages -/

theorem ne_msg_of_pref {p x t : GoStr} (hlen : 2 ≤ p.length)
    (hne : p.take 2 ≠ t.take 2) : p ++ x ≠ t := by
  intro he
  have h2 := congrArg (List.take 2) he
  rw [List.take_append_of_le_length hlen] at h2
  exact hne h2

theorem validateInt_ne_enum_msg (v : GoStr) (a : Annot) :
    validateInt v a ≠ some (gs "enum has no options defined") := by
  intro h
  unfold validateInt at h
  try dsimp only [] at h
  repeat' split at h
  all_goals first
    | exact Option.noConfusion h
    | (injection h with h; exact absurd h (by decide))
    | (injection h with h; (try simp only [List.append_assoc] at h);
       exact ne_msg_of_pref (by decide) (by decide) h)
    | (injection h with h; subst h; rename_i heq;
       (repeat' split at heq) <;>
       first
         | exact Option.noConfusion heq
         | (injection heq with heq; exact absurd heq (by decide))
         | (injection heq with heq; (try simp only [List.append_assoc] at heq);
            exact ne_msg_of_pref (by decide) (by decide) heq))

theorem validateNumeric_ne_enum_msg (o : Oracle) (v : GoStr) (a : Annot) :
    validateNumeric o v a ≠ some (gs "enum has no options defined") := by
  intro h
  unfold validateNumeric at h
  try dsimp only [] at h
  repeat' split at h
  all_goals first
    | exact Option.noConfusion h
    | (injection h with h; exact absurd h (by decide))
    | (injection h with h; (try simp only [List.append_assoc] at h);
       exact ne_msg_of_pref (by decide) (by decide) h)
    | (injection h with h; subst h; rename_i heq;
       (repeat' split at heq) <;>
       first
         | exact Option.noConfusion heq
         | (injection heq with heq; exact absurd heq (by decide))
         | (injection heq with heq; (try simp only [List.append_assoc] at heq);
            exact ne_msg_of_pref (by decide) (by decide) heq))

theorem validateString_ne_enum_msg (o : Oracle) (v : GoStr) (a : Annot) :
    validateString o v a ≠ some (gs "enum has no options defined") := by
  intro h
  unfold validateString at h
  try dsimp only [] at h
  repeat' split at h
  all_goals first
    | exact Option.noConfusion h
    | (injection h with h; exact absurd h (by decide))
    | (injection h with h; (try simp only [List.append_assoc] at h);
       exact ne_msg_of_pref (by decide) (by decide) h)
    | (injection h with h; subst h; rename_i heq;
       (repeat' split at heq) <;>
       first
         | exact Option.noConfusion heq
         | (injection heq with heq; exact absurd heq (by decide))
         | (injection heq with heq; (try simp only [List.append_assoc] at heq);
            exact ne_msg_of_pref (by decide) (by decide) heq))

theorem validateBoolean_ne_enum_msg (v : GoStr) :
    validateBoolean v ≠ some (gs "enum has no options defined") := by
  intro h
  unfold validateBoolean at h
  try dsimp only [] at h
  repeat' split at h
  all_goals first
    | exact Option.noConfusion h
    | (injection h with h; exact absurd h (by decide))
    | (injection h with h; (try simp only [List.append_assoc] at h);
       exact ne_msg_of_pref (by decide) (by decide) h)
    | (injection h with h; subst h; rename_i heq;
       (repeat' split at heq) <;>
       first
         | exact Option.noConfusion heq
         | (injection heq with heq; exact absurd heq (by decide))
         | (injection heq with heq; (try simp only [List.append_assoc] at heq);
            exact ne_msg_of_pref (by decide) (by decide) heq))

theorem validateObject_ne_enum_msg (o : Oracle) (v : GoStr) (a : Annot) :
    validateObject o v a ≠ some (gs "enum has no options defined") := by
  intro h
  unfold validateObject at h
  try dsimp only [] at h
  repeat' split at h
  all_goals first
    | exact Option.noConfusion h
    | (injection h with h; exact absurd h (by decide))
    | (injection h with h; (try simp only [List.append_assoc] at h);
       exact ne_msg_of_pref (by decide) (by decide) h)
    | (injection h with h; subst h; rename_i heq;
       (repeat' split at heq) <;>
       first
         | exact Option.noConfusion heq
         | (injection heq with heq; exact absurd heq (by decide))
         | (injection heq with heq; (try simp only [List.append_assoc] at heq);
            exact ne_msg_of_pref (by decide) (by decide) heq))

theorem validateEnum_ne_enum_msg {v : GoStr} {a : Annot}
    (hopt : GetConstraint a (gs "options") ≠ []) :
    validateEnum v a ≠ some (gs "enum has no options defined") := by
  intro h
  unfold validateEnum at h
  try dsimp only [] at h
  repeat' split at h
  all_goals first
    | exact Option.noConfusion h
    | exact absurd (by assumption) hopt
    | (injection h with h; exact absurd h (by decide))
    | (injection h with h; (try simp only [List.append_assoc] at h);
       exact ne_msg_of_pref (by decide) (by decide) h)

/-- Every annotation the parser returns with type enum has a non-empty
first-match `options` constraint (the enum fallback would otherwise have
replaced the type by string). -/
theorem parseAnnot_ok_enum {s : GoStr} {a : Annot} (h : ParseAnnot s = .ok a)
    (hty : a.Ty = .TypeEnum) : GetConstraint a (gs "options") ≠ [] := by
  rw [ParseAnnot] at h
  cases hc : parseAnnotCore s with
  | error e =>
    rw [hc] at h
    simp [Except.map] at h
  | ok a0 =>
    rw [hc] at h
    simp only [Except.map] at h
    injection h with h
    rw [enumFallback] at h
    by_cases hcond : a0.Ty = .TypeEnum ∧ GetConstraint a0 (gs "options") = []
    · rw [if_pos hcond] at h
      rw [← h] at hty
      simp at hty
    · rw [if_neg hcond] at h
      subst h
      intro hopt
      exact hcond ⟨hty, hopt⟩

/-! ### Helper lemmas: the int validator -/

theorem vvInt {o : Oracle} {value : GoStr} {a : Annot}
    (hty : a.Ty = .TypeInt) (hopt : a.IsOptional = false) :
    ValidateValue o value (some a) = validateInt value a := by
  rw [ValidateValue]
  split
  · rename_i hcond
    rw [hopt] at hcond
    simp at hcond
  · rw [hty]

theorem validateInt_not_parse {value : GoStr} {a : Annot} (hne : value ≠ [])
    (hp : parseInt64 value = none) :
    validateInt value a = some (gs "expected integer, got " ++ goQuote value) := by
  unfold validateInt
  rw [if_neg hne]
  dsimp only []
  rw [hp]

theorem validateInt_bounds {value : GoStr} {a : Annot} {n : Int}
    (hp : parseInt64 value = some n) :
    ((validateInt value a).isSome = true ↔
      (∃ lo, GetConstraint a (gs "min") ≠ [] ∧
        parseInt64 (GetConstraint a (gs "min")) = some lo ∧ n < lo) ∨
      (∃ hi, GetConstraint a (gs "max") ≠ [] ∧
        parseInt64 (GetConstraint a (gs "max")) = some hi ∧ hi < n)) := by
  have hne : value ≠ [] := by
    intro he
    subst he
    rw [show parseInt64 [] = none from rfl] at hp
    exact Option.noConfusion hp
  unfold validateInt
  rw [if_neg hne]
  dsimp only []
  rw [hp]
  dsimp only []
  by_cases hminS : GetConstraint a (gs "min") ≠ []
  · rw [if_pos hminS]
    cases hpl : parseInt64 (GetConstraint a (gs "min")) with
    | some lo =>
      dsimp only []
      by_cases hlt : n < lo
      · rw [if_pos hlt]
        dsimp only []
        exact iff_of_true rfl (Or.inl ⟨lo, hminS, rfl, hlt⟩)
      · rw [if_neg hlt]
        dsimp only []
        by_cases hmaxS : GetConstraint a (gs "max") ≠ []
        · rw [if_pos hmaxS]
          cases hph : parseInt64 (GetConstraint a (gs "max")) with
          | some hi =>
            dsimp only []
            by_cases hgt : hi < n
            · rw [if_pos hgt]
              exact iff_of_true rfl (Or.inr ⟨hi, hmaxS, rfl, hgt⟩)
            · rw [if_neg hgt]
              refine iff_of_false (by simp) ?_
              rintro (⟨lo2, _, hl2, hlt2⟩ | ⟨hi2, _, hh2, hgt2⟩)
              · injection hl2 with hl2
                omega
              · injection hh2 with hh2
                omega
          | none =>
            dsimp only []
            refine iff_of_false (by simp) ?_
            rintro (⟨lo2, _, hl2, hlt2⟩ | ⟨hi2, _, hh2, hgt2⟩)
            · injection hl2 with hl2
              omega
            · exact Option.noConfusion hh2
        · rw [if_neg hmaxS]
          refine iff_of_false (by simp) ?_
          rintro (⟨lo2, _, hl2, hlt2⟩ | ⟨hi2, hS2, hh2, hgt2⟩)
          · injection hl2 with hl2
            omega
          · exact hmaxS hS2
    | none =>
      dsimp only []
      by_cases hmaxS : GetConstraint a (gs "max") ≠ []
      · rw [if_pos hmaxS]
        cases hph : parseInt64 (GetConstraint a (gs "max")) with
        | some hi =>
          dsimp only []
          by_cases hgt : hi < n
          · rw [if_pos hgt]
            exact iff_of_true rfl (Or.inr ⟨hi, hmaxS, rfl, hgt⟩)
          · rw [if_neg hgt]
            refine iff_of_false (by simp) ?_
            rintro (⟨lo2, _, hl2, hlt2⟩ | ⟨hi2, _, hh2, hgt2⟩)
            · exact Option.noConfusion hl2
            · injection hh2 with hh2
              omega
        | none =>
          dsimp only []
          refine iff_of_false (by simp) ?_
          rintro (⟨lo2, _, hl2, hlt2⟩ | ⟨hi2, _, hh2, hgt2⟩)
          · exact Option.noConfusion hl2
          · exact Option.noConfusion hh2
      · rw [if_neg hmaxS]
        refine iff_of_false (by simp) ?_
        rintro (⟨lo2, _, hl2, hlt2⟩ | ⟨hi2, hS2, hh2, hgt2⟩)
        · exact Option.noConfusion hl2
        · exact hmaxS hS2
  · rw [if_neg hminS]
    dsimp only []
    by_cases hmaxS : GetConstraint a (gs "max") ≠ []
    · rw [if_pos hmaxS]
      cases hph : parseInt64 (GetConstraint a (gs "max")) with
      | some hi =>
        dsimp only []
        by_cases hgt : hi < n
        · rw [if_pos hgt]
          exact iff_of_true rfl (Or.inr ⟨hi, hmaxS, rfl, hgt⟩)
        · rw [if_neg hgt]
          refine iff_of_false (by simp) ?_
          rintro (⟨lo2, hS2, hl2, hlt2⟩ | ⟨hi2, _, hh2, hgt2⟩)
          · exact hminS hS2
          · injection hh2 with hh2
            omega
      | none =>
        dsimp only []
        refine iff_of_false (by simp) ?_
        rintro (⟨lo2, hS2, hl2, hlt2⟩ | ⟨hi2, _, hh2, hgt2⟩)
        · exact hminS hS2
        · exact Option.noConfusion hh2
    · rw [if_neg hmaxS]
      refine iff_of_false (by simp) ?_
      rintro (⟨lo2, hS2, hl2, hlt2⟩ | ⟨hi2, hS2, hh2, hgt2⟩)
      · exact hminS hS2
      · exact hmaxS hS2

/-! ## The claims -/

/-- C5: `TokenizeLine` returns a non-nil error if and only if the line,
after trimming, is not empty, does not start with `#`, contains an `=`
(located as the first `=`), has a non-empty trimmed name before that
`=`, and that name does not match `^[A-Z][A-Z0-9_]*$`; in all other
non-variable cases (empty line, comment line, no `=`, empty name) it
returns all-empty outputs and no error. -/
theorem claim_C5 (input : GoStr) :
    (isErr (TokenizeLine input) = true ↔ tokErrCond input) ∧
    (nonVarCase input → TokenizeLine input = .ok ([], [], [])) := by
  constructor
  · constructor
    · intro herr
      by_cases h0 : goTrim input = []
      · rw [tok_empty h0] at herr
        simp [isErr] at herr
      cases h1 : goHasPref (goTrim input) (gs "#") with
      | true =>
        rw [tok_comment h0 h1] at herr
        simp [isErr] at herr
      | false =>
        cases h2 : idxOfChar (goTrim input) '=' with
        | none =>
          rw [tok_no_eq h0 h1 h2] at herr
          simp [isErr] at herr
        | some i =>
          by_cases h3 : goTrim ((goTrim input).take i) = []
          · rw [tok_empty_name h0 h1 h2 h3] at herr
            simp [isErr] at herr
          cases h4 : variableNameOk (goTrim ((goTrim input).take i)) with
          | true =>
            rw [tok_good h0 h1 h2 h4] at herr
            simp [isErr] at herr
          | false => exact ⟨h0, h1, i, h2, h3, h4⟩
    · rintro ⟨h0, h1, i, h2, h3, h4⟩
      rw [tok_bad_name h0 h1 h2 h3 h4]
      simp [isErr]
  · rintro (h0 | h1 | h2 | ⟨i, h2, h3⟩)
    · exact tok_empty h0
    · by_cases h0 : goTrim input = []
      · exact tok_empty h0
      · exact tok_comment h0 h1
    · by_cases h0 : goTrim input = []
      · exact tok_empty h0
      cases h1 : goHasPref (goTrim input) (gs "#") with
      | true => exact tok_comment h0 h1
      | false => exact tok_no_eq h0 h1 h2
    · by_cases h0 : goTrim input = []
      · exact tok_empty h0
      cases h1 : goHasPref (goTrim input) (gs "#") with
      | true => exact tok_comment h0 h1
      | false => exact tok_empty_name h0 h1 h2 h3

/-- C5 witness: `lower=1` is rejected with an error; the comment `#x`,
the `=`-free line `abc`, and the empty-name line ` = 1` tokenize to
all-empty outputs without error. -/
theorem claim_C5_witness :
    isErr (TokenizeLine (gs "lower=1")) = true ∧
    TokenizeLine (gs "#x") = .ok ([], [], []) ∧
    TokenizeLine (gs "abc") = .ok ([], [], []) ∧
    TokenizeLine (gs " = 1") = .ok ([], [], []) :=
  ⟨(claim_C5 (gs "lower=1")).1.mpr ⟨by decide, by decide, 5, by decide, by decide, by decide⟩,
   (claim_C5 (gs "#x")).2 (Or.inr (Or.inl (by decide))),
   (claim_C5 (gs "abc")).2 (Or.inr (Or.inr (Or.inl (by decide)))),
   (claim_C5 (gs " = 1")).2 (Or.inr (Or.inr (Or.inr ⟨0, by decide, by decide⟩)))⟩

/-- C3: for every annotation string accepted by the annotation parser,
if the parsed type (before the fallback step) is enum and the first-match
lookup of the `options` constraint is absent or empty, the returned
annotation has type string with all stored constraints left in place; in
particular `#prompt:X?|enum;options:` parses successfully to type string
with the empty `options` constraint still stored. -/
theorem claim_C3 :
    (∀ s a0, parseAnnotCore s = .ok a0 → a0.Ty = .TypeEnum →
      GetConstraint a0 (gs "options") = [] →
      ParseAnnot s = .ok { a0 with Ty := .TypeString }) ∧
    ParseAnnot (gs "#prompt:X?|enum;options:") =
      .ok { PromptText := gs "X?", Ty := .TypeString,
            Constraints := [⟨gs "options", []⟩],
            IsOptional := false, IsSecret := false } := by
  constructor
  · intro s a0 hcore hty hopt
    rw [ParseAnnot, hcore]
    simp [Except.map, enumFallback, hty, hopt]
  · decide

/-- C3 witness: the main implication instantiated on the concrete input
`#prompt:X?|enum;options:`, whose core parse yields type enum with an
empty `options` constraint. -/
theorem claim_C3_witness :
    ParseAnnot (gs "#prompt:X?|enum;options:") =
      .ok { (⟨gs "X?", .TypeEnum, [⟨gs "options", []⟩], false, false⟩ : Annot) with
            Ty := .TypeString } :=
  claim_C3.1 (gs "#prompt:X?|enum;options:")
    ⟨gs "X?", .TypeEnum, [⟨gs "options", []⟩], false, false⟩
    (by decide) (by decide) (by decide)

/-- C10: the annotation parser returns the missing-type error exactly
when the first `;`-separated segment after the first `|` is the empty
string — including `#prompt:X|;min:1`, whose remainder after `|` is
non-empty — whereas the whitespace-only first segment of
`#prompt:X| ;min:1` is accepted and the type falls back to string. -/
theorem claim_C10 :
    (∀ s, ParseAnnot s = .error .missingType ↔
      (goHasPref (goTrim s) (gs "#prompt:") = true ∧
       ∃ i, idxOfChar ((goTrim s).drop (gs "#prompt:").length) '|' = some i ∧
         ((((goTrim s).drop (gs "#prompt:").length).drop (i + 1)).splitOn ';').head? =
           some [])) ∧
    ParseAnnot (gs "#prompt:X|;min:1") = .error .missingType ∧
    ParseAnnot (gs "#prompt:X| ;min:1") =
      .ok { PromptText := gs "X", Ty := .TypeString,
            Constraints := [⟨gs "min", gs "1"⟩],
            IsOptional := false, IsSecret := false } := by
  refine ⟨?_, by decide, by decide⟩
  intro s
  rw [parseAnnot_error_iff]
  constructor
  · intro herr
    cases h : goHasPref (goTrim s) (gs "#prompt:") with
    | false => rw [annotCore_no_prompt h] at herr; simp at herr
    | true =>
      cases h2 : idxOfChar ((goTrim s).drop (gs "#prompt:").length) '|' with
      | none => rw [annotCore_no_pipe h h2] at herr; simp at herr
      | some i =>
        rw [annotCore_pipe h h2] at herr
        refine ⟨rfl, i, rfl, ?_⟩
        cases hsp : ((((goTrim s).drop (gs "#prompt:").length).drop (i + 1)).splitOn ';') with
        | nil => exact absurd hsp (splitOn_ne_nil _ _)
        | cons p0 parts =>
          rw [hsp] at herr
          dsimp only [] at herr
          by_cases hp0 : p0 = []
          · rw [hp0]; rfl
          · rw [if_neg hp0] at herr
            simp at herr
  · rintro ⟨h, i, h2, hhead⟩
    rw [annotCore_pipe h h2]
    cases hsp : ((((goTrim s).drop (gs "#prompt:").length).drop (i + 1)).splitOn ';') with
    | nil => exact absurd hsp (splitOn_ne_nil _ _)
    | cons p0 parts =>
      rw [hsp] at hhead
      have hp0 : p0 = [] := by simpa using hhead
      dsimp only []
      rw [if_pos hp0]

/-- C10 witness: the characterisation instantiated on the two concrete
inputs of the claim. -/
theorem claim_C10_witness :
    ParseAnnot (gs "#prompt:X|;min:1") = .error .missingType ∧
    ¬ ParseAnnot (gs "#prompt:X| ;min:1") = .error .missingType :=
  ⟨(claim_C10.1 (gs "#prompt:X|;min:1")).mpr ⟨by decide, 1, by decide, by decide⟩,
   fun hc => by
    have h := (claim_C10.1 (gs "#prompt:X| ;min:1")).mp hc
    obtain ⟨-, i, hi, hhead⟩ := h
    have : i = 1 := by
      have := hi
      rw [show idxOfChar ((goTrim (gs "#prompt:X| ;min:1")).drop
        (gs "#prompt:").length) '|' = some 1 from by decide] at this
      simpa using this.symm
    subst this
    revert hhead
    decide⟩

/-- C8: every annotation produced by a successful `ParseAnnotation` call
that has type enum carries a non-empty first-match `options` constraint;
consequently the `enum has no options defined` error of `validateEnum`
can never be the outcome of `ValidateValue` on a parser-produced
annotation, whatever the JSON/YAML/regexp/float libraries do. -/
theorem claim_C8 (s : GoStr) (a : Annot) (h : ParseAnnot s = .ok a) :
    (a.Ty = .TypeEnum → GetConstraint a (gs "options") ≠ []) ∧
    (∀ (o : Oracle) (value : GoStr),
      ValidateValue o value (some a) ≠ some (gs "enum has no options defined")) := by
  refine ⟨parseAnnot_ok_enum h, ?_⟩
  intro o value
  rw [ValidateValue]
  split
  · simp
  · split
    · exact validateInt_ne_enum_msg value a
    · exact validateNumeric_ne_enum_msg o value a
    · exact validateString_ne_enum_msg o value a
    · exact validateEnum_ne_enum_msg (parseAnnot_ok_enum h (by assumption))
    · exact validateBoolean_ne_enum_msg value
    · exact validateObject_ne_enum_msg o value a

/-- C8 witness: instantiated on `#prompt:X|enum;options:a,b` and the
non-option value `c` under the trivial oracle. -/
theorem claim_C8_witness :
    GetConstraint ⟨gs "X", .TypeEnum, [⟨gs "options", gs "a,b"⟩], false, false⟩
      (gs "options") ≠ [] ∧
    ValidateValue trivOracle (gs "c")
      (some ⟨gs "X", .TypeEnum, [⟨gs "options", gs "a,b"⟩], false, false⟩) ≠
      some (gs "enum has no options defined") :=
  ⟨(claim_C8 (gs "#prompt:X|enum;options:a,b")
      ⟨gs "X", .TypeEnum, [⟨gs "options", gs "a,b"⟩], false, false⟩ (by decide)).1 (by decide),
   (claim_C8 (gs "#prompt:X|enum;options:a,b")
      ⟨gs "X", .TypeEnum, [⟨gs "options", gs "a,b"⟩], false, false⟩ (by decide)).2
      trivOracle (gs "c")⟩

/-- C2: for an int-typed, non-optional annotation, `ValidateValue` fails
on the empty value with message `value is required` even without bounds,
fails when the value does not parse as a base-10 signed 64-bit integer
(with the `expected integer` message, classified `invalid_type` as in
the concrete case below), and otherwise fails exactly when the parsed
integer is strictly below a parseable `min` constraint or strictly above
a parseable `max` constraint (inclusive bounds; a constraint whose value
does not itself parse is silently skipped).  With `min:1;max:10`: `1`
and `10` pass, `0` and `11` fail, `abc` fails with an
`invalid_type`-classified message. -/
theorem claim_C2 :
    (∀ (o : Oracle) (a : Annot), a.Ty = .TypeInt → a.IsOptional = false →
      (ValidateValue o [] (some a) = some (gs "value is required")) ∧
      (∀ value, value ≠ [] → parseInt64 value = none →
        ValidateValue o value (some a) =
          some (gs "expected integer, got " ++ goQuote value)) ∧
      (∀ value n, parseInt64 value = some n →
        ((ValidateValue o value (some a)).isSome = true ↔
          (∃ lo, GetConstraint a (gs "min") ≠ [] ∧
            parseInt64 (GetConstraint a (gs "min")) = some lo ∧ n < lo) ∨
          (∃ hi, GetConstraint a (gs "max") ≠ [] ∧
            parseInt64 (GetConstraint a (gs "max")) = some hi ∧ hi < n)))) ∧
    (∀ (o : Oracle),
      ValidateValue o (gs "1")
        (some ⟨gs "X?", .TypeInt, [⟨gs "min", gs "1"⟩, ⟨gs "max", gs "10"⟩],
          false, false⟩) = none ∧
      ValidateValue o (gs "10")
        (some ⟨gs "X?", .TypeInt, [⟨gs "min", gs "1"⟩, ⟨gs "max", gs "10"⟩],
          false, false⟩) = none ∧
      (ValidateValue o (gs "0")
        (some ⟨gs "X?", .TypeInt, [⟨gs "min", gs "1"⟩, ⟨gs "max", gs "10"⟩],
          false, false⟩)).isSome = true ∧
      (ValidateValue o (gs "11")
        (some ⟨gs "X?", .TypeInt, [⟨gs "min", gs "1"⟩, ⟨gs "max", gs "10"⟩],
          false, false⟩)).isSome = true ∧
      ∃ m, ValidateValue o (gs "abc")
        (some ⟨gs "X?", .TypeInt, [⟨gs "min", gs "1"⟩, ⟨gs "max", gs "10"⟩],
          false, false⟩) = some m ∧
        getErrorType m = .ErrorInvalidType) := by
  constructor
  · intro o a hty hopt
    refine ⟨?_, ?_, ?_⟩
    · rw [vvInt hty hopt]
      unfold validateInt
      rw [if_pos rfl]
    · intro value hne hp
      rw [vvInt hty hopt]
      exact validateInt_not_parse hne hp
    · intro value n hp
      rw [vvInt hty hopt]
      exact validateInt_bounds hp
  · intro o
    refine ⟨?_, ?_, ?_, ?_, ?_⟩
    · rw [vvInt rfl rfl]
      decide
    · rw [vvInt rfl rfl]
      decide
    · rw [vvInt rfl rfl]
      decide
    · rw [vvInt rfl rfl]
      decide
    · refine ⟨gs "expected integer, got " ++ goQuote (gs "abc"), ?_, by decide⟩
      rw [vvInt rfl rfl]
      decide

/-- C2 witness: the general statement instantiated on a bound-free int
annotation and the empty value under the trivial oracle. -/
theorem claim_C2_witness :
    ValidateValue trivOracle []
      (some ⟨gs "X", .TypeInt, [], false, false⟩) = some (gs "value is required") :=
  (claim_C2.1 trivOracle ⟨gs "X", .TypeInt, [], false, false⟩ rfl rfl).1

/-- Membership in the strict-truthy set coincides with the disjunction
of `BEq` tests that the Go code uses. -/
theorem strictBool_eq (v : GoStr) :
    (v == gs "true" || v == gs "1" || v == gs "yes") =
      decide (v ∈ [gs "true", gs "1", gs "yes"]) := by
  by_cases h1 : v = gs "true"
  · subst h1; decide
  by_cases h2 : v = gs "1"
  · subst h2; decide
  by_cases h3 : v = gs "yes"
  · subst h3; decide
  simp [h1, h2, h3]

/-- C6: `ParseConfig` agrees with the specification-side restatement
`configSpec` on every input: defaults first (`environments=["local"]`,
`strict=false`, `distPath=".env.dist"`), then per recognized key with
last write winning, `environments` comma-split/trimmed/empty-dropped,
`strict` an exact `true`/`1`/`yes` test, `distPath` overwritten only by
a non-empty value, unknown keys ignored.  In particular an all-empty
`environments` value yields the empty list (distinct from the absent-key
default), and a later unrecognized `strict` value overwrites an earlier
`true`. -/
theorem claim_C6 :
    (∀ lines, ParseConfig lines = configSpec lines) ∧
    ParseConfig [] = DefaultConfig ∧
    DefaultConfig = ⟨[gs "local"], false, gs ".env.dist"⟩ ∧
    ParseConfig [gs "#krakenv:environments="] =
      ⟨[], false, gs ".env.dist"⟩ ∧
    ParseConfig [gs "#krakenv:strict=true", gs "#krakenv:strict=TRUE"] =
      ⟨[gs "local"], false, gs ".env.dist"⟩ := by
  refine ⟨?_, by decide, by decide, by decide, by decide⟩
  intro lines
  rw [ParseConfig, configSpec]
  congr 1
  funext cfg line
  unfold applyConfigLine
  dsimp only []
  by_cases h0 : (ParseConfigLine line).1 = []
  · rw [if_pos h0, h0]
    rw [if_neg (by decide), if_neg (by decide), if_neg (by decide)]
  rw [if_neg h0]
  by_cases h1 : (ParseConfigLine line).1 = gs "environments"
  · rw [if_pos h1, if_pos h1]
    have := envFold_eq (((ParseConfigLine line).2).splitOn ',') []
    rw [this]
    simp
  rw [if_neg h1, if_neg h1]
  by_cases h2 : (ParseConfigLine line).1 = gs "strict"
  · rw [if_pos h2, if_pos h2, strictBool_eq]
  rw [if_neg h2, if_neg h2]
  by_cases h3 : (ParseConfigLine line).1 = gs "distPath"
  · rw [if_pos h3, if_pos h3]
    by_cases h4 : (ParseConfigLine line).2 = []
    · rw [if_pos h4, if_neg (by simpa using h4)]
    · rw [if_neg h4, if_pos h4]
  rw [if_neg h3, if_neg h3]

/-! ### Helper lemmas: name lookup in the document state -/

theorem lookupPos_append (ps : List (GoStr × Nat)) (nm : GoStr) (k : Nat) (n : GoStr) :
    lookupPos (ps ++ [(nm, k)]) n =
      match lookupPos ps n with
      | some i => some i
      | none => if nm = n then some k else none := by
  induction ps with
  | nil =>
    by_cases h : nm = n
    · subst h
      simp [lookupPos, List.find?]
    · rw [lookupPos, lookupPos]
      simp only [List.nil_append, List.find?]
      rw [beq_eq_false_iff_ne.mpr (fun hc => h hc)]
      simp [h]
  | cons p rest ih =>
    cases hb : (p.1 == n) with
    | true => simp [lookupPos, List.find?_cons, hb]
    | false =>
      simp only [List.cons_append]
      rw [lookupPos, List.find?_cons, hb]
      rw [lookupPos, List.find?_cons, hb] at *
      exact ih

theorem findName_append (a b : List Variable) (n : GoStr) :
    findName (a ++ b) n =
      match findName a n with
      | some i => some i
      | none => (findName b n).map (· + a.length) := by
  induction a with
  | nil =>
    cases h : findName b n <;> simp [findName, h]
  | cons v rest ih =>
    rw [List.cons_append, findName, findName]
    by_cases h : v.Name = n
    · rw [if_pos h, if_pos h]
    · rw [if_neg h, if_neg h, ih]
      cases hb : findName rest n with
      | some i => simp
      | none =>
        cases hc : findName b n with
        | some j =>
          simp only [Option.map_some, Option.map_none, List.length_cons]
          try simp
          try omega
        | none => simp

theorem findName_eq_some {vars : List Variable} {n : GoStr} {i : Nat}
    (h : findName vars n = some i) : ∃ v, vars[i]? = some v ∧ v.Name = n := by
  induction vars generalizing i with
  | nil => simp [findName] at h
  | cons v rest ih =>
    rw [findName] at h
    by_cases hv : v.Name = n
    · rw [if_pos hv] at h
      have : i = 0 := by simpa using h.symm
      subst this
      exact ⟨v, by simp, hv⟩
    · rw [if_neg hv] at h
      cases hb : findName rest n with
      | none => rw [hb] at h; simp at h
      | some j =>
        rw [hb] at h
        simp at h
        obtain ⟨w, hw, hwn⟩ := ih hb
        subst h
        exact ⟨w, by simpa using hw, hwn⟩

theorem findName_none {vars : List Variable} {n : GoStr}
    (h : findName vars n = none) : ∀ v ∈ vars, v.Name ≠ n := by
  induction vars with
  | nil => simp
  | cons v rest ih =>
    rw [findName] at h
    by_cases hv : v.Name = n
    · rw [if_pos hv] at h; simp at h
    · rw [if_neg hv] at h
      intro w hw
      rcases List.mem_cons.mp hw with rfl | hmem
      · exact hv
      · cases hb : findName rest n with
        | some j => rw [hb] at h; simp at h
        | none => exact ih hb w hmem

theorem findName_set {vars : List Variable} {j : Nat} {w v : Variable}
    (hj : vars[j]? = some w) (hname : v.Name = w.Name) (n : GoStr) :
    findName (vars.set j v) n = findName vars n := by
  induction vars generalizing j with
  | nil => simp at hj
  | cons u rest ih =>
    cases j with
    | zero =>
      have : u = w := by simpa using hj
      subst this
      simp only [List.set_cons_zero, findName, hname]
    | succ k =>
      have hk : rest[k]? = some w := by simpa using hj
      simp only [List.set_cons_succ, findName, ih hk]

/-! ### Helper lemmas: facts about tokenizer outputs -/

theorem parseValue_infix_self (x : GoStr) : parseValue x <:+: x := by
  have hs : goTrim x <:+: x := goTrim_infix_self x
  unfold parseValue
  dsimp only []
  split
  · exact List.nil_infix
  · split
    · refine List.IsInfix.trans ?_ hs
      exact (List.dropLast_prefix _).isInfix.trans (List.drop_suffix 1 (goTrim x)).isInfix
    · split
      · refine List.IsInfix.trans ?_ hs
        exact (List.dropLast_prefix _).isInfix.trans (List.drop_suffix 1 (goTrim x)).isInfix
      · exact hs

theorem goContains_take_false {sub s : GoStr} {i : Nat} (hx : idxOfSub sub s = some i)
    (hne : sub ≠ []) : goContains (s.take i) sub = false := by
  cases hc : goContains (s.take i) sub with
  | false => rfl
  | true =>
    exfalso
    obtain ⟨a, b, hab⟩ := goContains_iff.mp hc
    have hlen : a.length + sub.length ≤ (s.take i).length := by
      rw [← hab]
      simp
    have hti : (s.take i).length ≤ i := by simp
    have hpos : 0 < sub.length := List.length_pos.mpr hne
    have hlt : a.length < i := by omega
    have hpref : sub.isPrefixOf (s.drop a.length) = true := by
      rw [List.isPrefixOf_iff_prefix]
      have h1 : sub <+: (s.take i).drop a.length := by
        rw [← hab, List.append_assoc, List.drop_left]
        exact List.prefix_append sub b
      have h2 : (s.take i).drop a.length <+: s.drop a.length := by
        rw [List.drop_take]
        exact List.take_prefix _ _
      exact h1.trans h2
    have := idxOfSub_min hx a.length hlt
    rw [hpref] at this
    exact Bool.noConfusion this

theorem tokenize_ok_facts {line name value annStr : GoStr}
    (h : TokenizeLine line = .ok (name, value, annStr)) (hne : name ≠ []) :
    variableNameOk name = true ∧
    line.contains '=' = true ∧
    goContains value annMarker = false := by
  by_cases h0 : goTrim line = []
  · rw [tok_empty h0] at h
    injection h with h
    simp at h
    exact absurd h.1 hne
  cases h1 : goHasPref (goTrim line) (gs "#") with
  | true =>
    rw [tok_comment h0 h1] at h
    injection h with h
    simp at h
    exact absurd h.1 hne
  | false =>
    cases h2 : idxOfChar (goTrim line) '=' with
    | none =>
      rw [tok_no_eq h0 h1 h2] at h
      injection h with h
      simp at h
      exact absurd h.1 hne
    | some i =>
      by_cases h3 : goTrim ((goTrim line).take i) = []
      · rw [tok_empty_name h0 h1 h2 h3] at h
        injection h with h
        simp at h
        exact absurd h.1 hne
      cases h4 : variableNameOk (goTrim ((goTrim line).take i)) with
      | false =>
        rw [tok_bad_name h0 h1 h2 h3 h4] at h
        exact Except.noConfusion h
      | true =>
        rw [tok_good h0 h1 h2 h4] at h
        dsimp only [] at h
        have hcontains : line.contains '=' = true := by
          have hmem : ('=' : Char) ∈ line := goTrim_subset (mem_of_idxOfChar h2)
          simpa using hmem
        cases hm : idxOfSub annMarker ((goTrim line).drop (i + 1)) with
        | some i0 =>
          rw [hm] at h
          dsimp only [] at h
          injection h with h
          simp only [Prod.mk.injEq] at h
          obtain ⟨hn, hv, ha⟩ := h
          subst hn
          refine ⟨h4, hcontains, ?_⟩
          subst hv
          have hc0 : goContains (((goTrim line).drop (i + 1)).take i0) annMarker = false :=
            goContains_take_false hm (by decide)
          apply goContains_false_mono _ hc0
          exact (parseValue_infix_self _).trans (goTrim_infix_self _)
        | none =>
          rw [hm] at h
          dsimp only [] at h
          injection h with h
          simp only [Prod.mk.injEq] at h
          obtain ⟨hn, hv, ha⟩ := h
          subst hn
          refine ⟨h4, hcontains, ?_⟩
          subst hv
          have hc0 : goContains ((goTrim line).drop (i + 1)) annMarker = false := by
            rw [goContains, hm]
            rfl
          apply goContains_false_mono _ hc0
          exact (parseValue_infix_self _).trans (goTrim_infix_self _)

/-! ### Helper lemmas: well-formedness of parsed annotations -/

theorem stepModifier_promptText (a : Annot) (p : GoStr) :
    (stepModifier a p).PromptText = a.PromptText := by
  unfold stepModifier
  dsimp only []
  repeat' split
  all_goals rfl

theorem stepModifier_constraints (a : Annot) (p : GoStr) :
    ∀ c ∈ (stepModifier a p).Constraints,
      c ∈ a.Constraints ∨
      (knownConstraints c.name = true ∧ goTrim c.value = c.value ∧ c.value <:+: p) := by
  intro c hc
  unfold stepModifier at hc
  dsimp only [] at hc
  repeat' split at hc
  all_goals try exact Or.inl hc
  rename_i hknown
  rw [List.mem_append] at hc
  rcases hc with hc | hc
  · exact Or.inl hc
  · rename_i x m heq
    have hceq : c = ⟨goTrim ((goTrim p).take m), goTrim ((goTrim p).drop (m + 1))⟩ := by
      simpa using hc
    right
    rw [hceq]
    refine ⟨hknown, goTrim_idem _, ?_⟩
    exact ((goTrim_infix_self _).trans (List.drop_suffix _ (goTrim p)).isInfix).trans
      (goTrim_infix_self p)

theorem foldl_step_promptText (parts : List GoStr) (a : Annot) :
    (parts.foldl stepModifier a).PromptText = a.PromptText := by
  induction parts generalizing a with
  | nil => rfl
  | cons p rest ih => rw [List.foldl_cons, ih, stepModifier_promptText]

theorem foldl_step_constraints (parts : List GoStr) (a : Annot) :
    ∀ c ∈ (parts.foldl stepModifier a).Constraints,
      c ∈ a.Constraints ∨
      ∃ p ∈ parts,
        knownConstraints c.name = true ∧ goTrim c.value = c.value ∧ c.value <:+: p := by
  induction parts generalizing a with
  | nil => intro c hc; exact Or.inl hc
  | cons p rest ih =>
    intro c hc
    rw [List.foldl_cons] at hc
    rcases ih (stepModifier a p) c hc with hmem | ⟨q, hq, hfacts⟩
    · rcases stepModifier_constraints a p c hmem with hmem2 | hfacts
      · exact Or.inl hmem2
      · exact Or.inr ⟨p, by simp, hfacts⟩
    · exact Or.inr ⟨q, by simp [hq], hfacts⟩

theorem enumFallback_promptText (a : Annot) :
    (enumFallback a).PromptText = a.PromptText := by
  unfold enumFallback
  split <;> rfl

theorem enumFallback_constraints (a : Annot) :
    (enumFallback a).Constraints = a.Constraints := by
  unfold enumFallback
  split <;> rfl

theorem parseAnnot_wf {s : GoStr} {a : Annot} (h : ParseAnnot s = .ok a) : WFAnn a := by
  refine ⟨?_, ?_, ?_, parseAnnot_ok_enum h⟩
  all_goals {
    have hcore : ∃ a0, parseAnnotCore s = .ok a0 ∧ a = enumFallback a0 := by
      rw [ParseAnnot] at h
      cases hc : parseAnnotCore s with
      | error e => rw [hc] at h; simp [Except.map] at h
      | ok a0 =>
        rw [hc] at h
        simp only [Except.map] at h
        injection h with h
        exact ⟨a0, rfl, h.symm⟩
    obtain ⟨a0, hc, rfl⟩ := hcore
    cases h1 : goHasPref (goTrim s) (gs "#prompt:") with
    | false => rw [annotCore_no_prompt h1] at hc; exact Except.noConfusion hc
    | true =>
      cases h2 : idxOfChar ((goTrim s).drop (gs "#prompt:").length) '|' with
      | none => rw [annotCore_no_pipe h1 h2] at hc; exact Except.noConfusion hc
      | some i =>
        rw [annotCore_pipe h1 h2] at hc
        cases hsp : (((goTrim s).drop (gs "#prompt:").length).drop (i + 1)).splitOn ';' with
        | nil => exact absurd hsp (splitOn_ne_nil _ _)
        | cons p0 parts =>
          rw [hsp] at hc
          dsimp only [] at hc
          by_cases hp0 : p0 = []
          · rw [if_pos hp0] at hc; exact Except.noConfusion hc
          rw [if_neg hp0] at hc
          injection hc with hc
          subst hc
          first
          | -- prompt text is trimmed
            (rw [enumFallback_promptText, foldl_step_promptText]
             exact goTrim_idem _)
          | -- prompt text has no pipe
            (rw [enumFallback_promptText, foldl_step_promptText]
             intro hmem
             exact absurd (goTrim_subset hmem) (not_mem_take_of_idxOfChar h2))
          | -- constraints well-formed
            (rw [enumFallback_constraints]
             intro c hcmem
             rcases foldl_step_constraints parts _ c hcmem with hmem | ⟨p, hp, hk, htr, hinf⟩
             · simp at hmem
             · refine ⟨hk, htr, ?_⟩
               intro hsemi
               have hpmem : (';' : Char) ∈ p := hinf.subset hsemi
               have : p ∈ (((goTrim s).drop (gs "#prompt:").length).drop (i + 1)).splitOn ';' := by
                 rw [hsp]
                 simp [hp]
               exact splitOn_pieces p this hpmem)
  }

/-! ### Helper lemmas: the document-assembly loop -/

theorem set_getElem_self {α : Type} {l : List α} {i : Nat} {a : α}
    (h : l[i]? = some a) : l.set i a = l := by
  apply List.ext_getElem?
  intro j
  by_cases hij : i = j
  · subst hij
    rw [List.getElem?_set_self (List.getElem?_eq_some.mp h).1]
    exact h.symm
  · rw [List.getElem?_set_ne hij]

theorem pl_config {st : PState} {line : GoStr} {n : Nat} (h : IsConfigLine line = true) :
    processLine st line n = { st with configLines := st.configLines ++ [line] } := by
  unfold processLine
  rw [if_pos h]

theorem pl_comment {st : PState} {line : GoStr} {n : Nat}
    (h0 : IsConfigLine line = false)
    (h1 : (IsComment line && !IsAnnotLine line) = true) :
    processLine st line n =
      (if ExtractCommentText line = [] then st
       else { st with Comments := st.Comments ++ [⟨ExtractCommentText line, n⟩] }) := by
  unfold processLine
  rw [if_neg (by rw [h0]; simp), if_pos h1]

theorem pl_empty {st : PState} {line : GoStr} {n : Nat}
    (h0 : IsConfigLine line = false)
    (h1 : (IsComment line && !IsAnnotLine line) = false)
    (h2 : IsEmptyLine line = true) :
    processLine st line n = st := by
  unfold processLine
  rw [if_neg (by rw [h0]; simp), if_neg (by rw [h1]; simp), if_pos h2]

theorem pl_tokerr {st : PState} {line : GoStr} {n : Nat} {e : GoStr}
    (h0 : IsConfigLine line = false)
    (h1 : (IsComment line && !IsAnnotLine line) = false)
    (h2 : IsEmptyLine line = false)
    (h3 : TokenizeLine line = .error e) :
    processLine st line n = st := by
  unfold processLine
  rw [if_neg (by rw [h0]; simp), if_neg (by rw [h1]; simp), if_neg (by rw [h2]; simp), h3]

theorem pl_ok_empty {st : PState} {line : GoStr} {n : Nat} {value annStr : GoStr}
    (h0 : IsConfigLine line = false)
    (h1 : (IsComment line && !IsAnnotLine line) = false)
    (h2 : IsEmptyLine line = false)
    (h3 : TokenizeLine line = .ok ([], value, annStr)) :
    processLine st line n = st := by
  unfold processLine
  rw [if_neg (by rw [h0]; simp), if_neg (by rw [h1]; simp), if_neg (by rw [h2]; simp), h3]
  dsimp only []
  rw [if_pos rfl]

theorem pl_ok {st : PState} {line : GoStr} {n : Nat} {name value annStr : GoStr}
    (h0 : IsConfigLine line = false)
    (h1 : (IsComment line && !IsAnnotLine line) = false)
    (h2 : IsEmptyLine line = false)
    (h3 : TokenizeLine line = .ok (name, value, annStr))
    (hname : name ≠ []) :
    processLine st line n =
      (match lookupPos st.varPositions name with
       | some idx =>
         { st with Variables := st.Variables.set idx (builtVar line name value annStr n) }
       | none =>
         { st with
           varPositions := st.varPositions ++ [(name, st.Variables.length)]
           Variables := st.Variables ++ [builtVar line name value annStr n] }) := by
  unfold processLine
  rw [if_neg (by rw [h0]; simp), if_neg (by rw [h1]; simp), if_neg (by rw [h2]; simp), h3]
  dsimp only []
  rw [if_neg hname]
  rfl

theorem builtVar_facts {line name value annStr : GoStr} {n : Nat}
    (h3 : TokenizeLine line = .ok (name, value, annStr)) (hname : name ≠ []) :
    (builtVar line name value annStr n).IsSet = true ∧
    WFVar (builtVar line name value annStr n) := by
  obtain ⟨hnOk, hcont, hval⟩ := tokenize_ok_facts h3 hname
  constructor
  · show (!(value == []) || line.contains '=') = true
    rw [hcont]
    exact Bool.or_true _
  · refine ⟨hnOk, goTrim_idem _, ?_, ?_⟩
    · exact goContains_false_mono (goTrim_infix_self value) hval
    · intro a ha
      have ha2 : annOf annStr = some a := ha
      unfold annOf at ha2
      split at ha2
      · exact Option.noConfusion ha2
      · split at ha2
        · exact Option.noConfusion ha2
        · rename_i b hb
          injection ha2 with ha2
          subst ha2
          exact parseAnnot_wf hb

theorem processLine_inv {st : PState} {line : GoStr} {n : Nat} (h : PInv st) :
    PInv (processLine st line n) := by
  cases hcfg : IsConfigLine line with
  | true => rw [pl_config hcfg]; exact h
  | false =>
  cases hcom : (IsComment line && !IsAnnotLine line) with
  | true =>
    rw [pl_comment hcfg hcom]
    split
    · exact h
    · exact h
  | false =>
  cases hemp : IsEmptyLine line with
  | true => rw [pl_empty hcfg hcom hemp]; exact h
  | false =>
  cases htok : TokenizeLine line with
  | error e => rw [pl_tokerr hcfg hcom hemp htok]; exact h
  | ok t =>
    obtain ⟨name, value, annStr⟩ := t
    by_cases hname : name = []
    · subst hname
      rw [pl_ok_empty hcfg hcom hemp htok]
      exact h
    rw [pl_ok hcfg hcom hemp htok hname]
    obtain ⟨hmap, hnodup, hall⟩ := h
    obtain ⟨hset, hwf⟩ := builtVar_facts (n := n) htok hname
    cases hlook : lookupPos st.varPositions name with
    | some idx =>
      dsimp only []
      have hfind : findName st.Variables name = some idx := by rw [← hmap]; exact hlook
      obtain ⟨w, hw, hwname⟩ := findName_eq_some hfind
      have hvn : (builtVar line name value annStr n).Name = w.Name := by
        show name = w.Name
        exact hwname.symm
      refine ⟨?_, ?_, ?_⟩
      · intro n2
        rw [findName_set hw hvn]
        exact hmap n2
      · show ((st.Variables.set idx (builtVar line name value annStr n)).map
            Variable.Name).Nodup
        have hmapset : (st.Variables.set idx (builtVar line name value annStr n)).map
            Variable.Name = st.Variables.map Variable.Name := by
          rw [List.map_set]
          apply set_getElem_self
          rw [List.getElem?_map, hw]
          show Option.map Variable.Name (some w) = some ((builtVar line name value annStr n).Name)
          rw [hvn]
          rfl
        rw [hmapset]
        exact hnodup
      · intro v hv
        rcases List.mem_or_eq_of_mem_set hv with hmem | rfl
        · exact hall v hmem
        · exact ⟨hset, hwf⟩
    | none =>
      dsimp only []
      have hfind : findName st.Variables name = none := by rw [← hmap]; exact hlook
      refine ⟨?_, ?_, ?_⟩
      · intro n2
        rw [lookupPos_append, findName_append, hmap n2]
        cases hf : findName st.Variables n2 with
        | some i => rfl
        | none =>
          dsimp only []
          by_cases heq : name = n2
          · rw [if_pos heq]
            rw [findName]
            rw [if_pos (show (builtVar line name value annStr n).Name = n2 from heq)]
            simp
          · rw [if_neg heq]
            rw [findName]
            rw [if_neg (show ¬(builtVar line name value annStr n).Name = n2 from heq)]
            simp [findName]
      · rw [List.map_append]
        rw [List.nodup_append]
        refine ⟨hnodup, by simp, ?_⟩
        intro x hx hx2
        have : x = name := by simpa using hx2
        subst this
        obtain ⟨v, hvmem, hvn⟩ := List.mem_map.mp hx
        exact findName_none hfind v hvmem hvn
      · intro v hv
        rcases List.mem_append.mp hv with hmem | hmem
        · exact hall v hmem
        · have : v = builtVar line name value annStr n := by simpa using hmem
          subst this
          exact ⟨hset, hwf⟩

theorem processAux_inv {lines : List GoStr} {n : Nat} {st : PState} (h : PInv st) :
    PInv (processAux lines n st) := by
  induction lines generalizing n st with
  | nil => exact h
  | cons l rest ih => exact ih (processLine_inv h)

theorem parseLines_inv (lines : List GoStr) (path : GoStr) :
    ∃ st, processAux lines 0 ⟨[], [], [], []⟩ = st ∧ PInv st ∧
      parseLines lines path =
        { Path := path, Variables := st.Variables, Comments := st.Comments,
          Config := if st.configLines = [] then none
                    else some (ParseConfig st.configLines) } := by
  refine ⟨processAux lines 0 ⟨[], [], [], []⟩, rfl, ?_, rfl⟩
  apply processAux_inv
  refine ⟨fun n => rfl, by simp, by simp⟩

theorem goHasPref_of_pref {s p1 p2 : GoStr} (h : goHasPref s p2 = true)
    (hp : p1 <+: p2) : goHasPref s p1 = true := by
  rw [goHasPref, List.isPrefixOf_iff_prefix] at h ⊢
  exact hp.trans h

theorem notConfig_of_notComment {line : GoStr}
    (h1 : goHasPref (goTrim line) (gs "#") = false) : IsConfigLine line = false := by
  cases hx : IsConfigLine line with
  | false => rfl
  | true =>
    have hx2 : goHasPref (goTrim line) (gs "#krakenv:") = true := hx
    have := @goHasPref_of_pref _ (gs "#") _ hx2 (by decide)
    rw [this] at h1
    exact Bool.noConfusion h1

theorem tokenize_ok_classify {line name value annStr : GoStr}
    (h : TokenizeLine line = .ok (name, value, annStr)) (hne : name ≠ []) :
    IsConfigLine line = false ∧ (IsComment line && !IsAnnotLine line) = false ∧
      IsEmptyLine line = false := by
  by_cases h0 : goTrim line = []
  · rw [tok_empty h0] at h
    injection h with h
    simp at h
    exact absurd h.1 hne
  cases h1 : goHasPref (goTrim line) (gs "#") with
  | true =>
    rw [tok_comment h0 h1] at h
    injection h with h
    simp at h
    exact absurd h.1 hne
  | false =>
    refine ⟨notConfig_of_notComment h1, ?_, ?_⟩
    · rw [show IsComment line = false from h1]
      rfl
    · rw [IsEmptyLine]
      simpa using h0

theorem tokenize_err_classify {line e : GoStr}
    (h : TokenizeLine line = .error e) :
    IsConfigLine line = false ∧ (IsComment line && !IsAnnotLine line) = false ∧
      IsEmptyLine line = false := by
  by_cases h0 : goTrim line = []
  · rw [tok_empty h0] at h
    exact Except.noConfusion h
  cases h1 : goHasPref (goTrim line) (gs "#") with
  | true =>
    rw [tok_comment h0 h1] at h
    exact Except.noConfusion h
  | false =>
    refine ⟨notConfig_of_notComment h1, ?_, ?_⟩
    · rw [show IsComment line = false from h1]
      rfl
    · rw [IsEmptyLine]
      simpa using h0

theorem processAux_append (xs ys : List GoStr) (n : Nat) (st : PState) :
    processAux (xs ++ ys) n st = processAux ys (n + xs.length) (processAux xs n st) := by
  induction xs generalizing n st with
  | nil => simp [processAux]
  | cons x rest ih =>
    have h1 : processAux ((x :: rest) ++ ys) n st
        = processAux (rest ++ ys) (n + 1) (processLine st x (n + 1)) := rfl
    have h2 : processAux (x :: rest) n st
        = processAux rest (n + 1) (processLine st x (n + 1)) := rfl
    rw [h1, h2, ih, List.length_cons,
        show n + 1 + rest.length = n + (rest.length + 1) from by omega]

/-- C9: every variable of a parsed document has `IsSet = true` — a
variable is only built from a line whose tokenization found an `=`, so
the computed condition `value non-empty OR line contains =` always
holds. -/
theorem claim_C9 (lines : List GoStr) (path : GoStr) :
    ∀ v ∈ (parseLines lines path).Variables, v.IsSet = true := by
  intro v hv
  obtain ⟨st, hst, hinv, heq⟩ := parseLines_inv lines path
  rw [heq] at hv
  exact (hinv.2.2 v hv).1

/-- C9 witness: the single variable of `A=1` is set. -/
theorem claim_C9_witness :
    (⟨gs "A", gs "1", none, 1, true⟩ : Variable).IsSet = true :=
  claim_C9 [gs "A=1"] [] ⟨gs "A", gs "1", none, 1, true⟩ (by decide)

/-- C1: no two variables of a parsed document share a name; a further
line re-defining an existing name replaces that variable in place at its
original position, carrying the later occurrence's value, annotation and
line number; `A=1` then `A=2` yields exactly one variable `A` with value
`2` recorded at line number 2. -/
theorem claim_C1 :
    (∀ lines path, ((parseLines lines path).Variables.map Variable.Name).Nodup) ∧
    (∀ lines path line name value annStr i,
      TokenizeLine line = .ok (name, value, annStr) → name ≠ [] →
      findName (parseLines lines path).Variables name = some i →
      (parseLines (lines ++ [line]) path).Variables =
        (parseLines lines path).Variables.set i
          (builtVar line name value annStr (lines.length + 1))) ∧
    (∀ path, (parseLines [gs "A=1", gs "A=2"] path).Variables =
      [⟨gs "A", gs "2", none, 2, true⟩]) := by
  refine ⟨?_, ?_, ?_⟩
  · intro lines path
    obtain ⟨st, hst, hinv, heq⟩ := parseLines_inv lines path
    rw [heq]
    exact hinv.2.1
  · intro lines path line name value annStr i htok hname hfind
    obtain ⟨st, hst, hinv, heq⟩ := parseLines_inv lines path
    obtain ⟨hcfg, hcom, hemp⟩ := tokenize_ok_classify htok hname
    obtain ⟨st2, hst2, hinv2, heq2⟩ := parseLines_inv (lines ++ [line]) path
    rw [heq2, heq]
    rw [← hst2, processAux_append, hst]
    have haux : processAux [line] (0 + lines.length) st
        = processLine st line (0 + lines.length + 1) := rfl
    rw [haux, pl_ok hcfg hcom hemp htok hname]
    rw [heq] at hfind
    have hlook : lookupPos st.varPositions name = some i := by
      rw [hinv.1]
      exact hfind
    rw [hlook]
    dsimp only []
    rw [show 0 + lines.length + 1 = lines.length + 1 from by omega]

  intro path
  show (processAux [gs "A=1", gs "A=2"] 0 ⟨[], [], [], []⟩).Variables =
    [⟨gs "A", gs "2", none, 2, true⟩]
  decide

/-- C1 witness: appending `A=2` to the document `A=1` replaces the
variable in place at index 0. -/
theorem claim_C1_witness :
    (parseLines ([gs "A=1"] ++ [gs "A=2"]) []).Variables =
      (parseLines [gs "A=1"] []).Variables.set 0
        (builtVar (gs "A=2") (gs "A") (gs "2") [] 2) :=
  claim_C1.2.1 [gs "A=1"] [] (gs "A=2") (gs "A") (gs "2") [] 0
    (by decide) (by decide) (by decide)

/-- C7: document assembly is total and best-effort — parsing never
returns an error; a line whose tokenization fails behaves exactly like a
blank line (skipped, its error discarded); a variable line whose
captured annotation fails to parse keeps the variable, with no
annotation attached. -/
theorem claim_C7 :
    (∀ content path, ∃ doc, ParseEnvFileContent content path = .ok doc) ∧
    (∀ pre post line path e, TokenizeLine line = .error e →
      parseLines (pre ++ line :: post) path = parseLines (pre ++ [] :: post) path) ∧
    (∀ line path name value annStr err,
      TokenizeLine line = .ok (name, value, annStr) → name ≠ [] → annStr ≠ [] →
      ParseAnnot annStr = .error err →
      (parseLines [line] path).Variables = [⟨name, goTrim value, none, 1, true⟩]) := by
  refine ⟨fun content path => ⟨_, rfl⟩, ?_, ?_⟩
  · intro pre post line path e htok
    obtain ⟨hcfg, hcom, hemp⟩ := tokenize_err_classify htok
    have key : processAux (pre ++ line :: post) 0 ⟨[], [], [], []⟩
        = processAux (pre ++ [] :: post) 0 ⟨[], [], [], []⟩ := by
      rw [show pre ++ line :: post = pre ++ [line] ++ post from by simp,
          show pre ++ ([] : GoStr) :: post = pre ++ [([] : GoStr)] ++ post from by simp,
          processAux_append, processAux_append, processAux_append, processAux_append]
      simp only [List.length_append, List.length_cons, List.length_nil]
      have hline : processAux [line] (0 + pre.length)
            (processAux pre 0 ⟨[], [], [], []⟩)
          = processAux [([] : GoStr)] (0 + pre.length)
            (processAux pre 0 ⟨[], [], [], []⟩) := by
        show processLine (processAux pre 0 ⟨[], [], [], []⟩) line (0 + pre.length + 1)
            = processLine (processAux pre 0 ⟨[], [], [], []⟩) [] (0 + pre.length + 1)
        rw [pl_tokerr hcfg hcom hemp htok,
            pl_empty (by decide) (by decide) (by decide)]
      rw [hline]
    rw [parseLines, parseLines, key]
  · intro line path name value annStr err htok hname hann herr
    obtain ⟨hcfg, hcom, hemp⟩ := tokenize_ok_classify htok hname
    have haux : processAux [line] 0 ⟨[], [], [], []⟩
        = processLine ⟨[], [], [], []⟩ line 1 := rfl
    rw [parseLines]
    dsimp only []
    rw [haux, pl_ok hcfg hcom hemp htok hname]
    rw [show lookupPos ((⟨[], [], [], []⟩ : PState)).varPositions name = none from rfl]
    dsimp only []
    show [builtVar line name value annStr 1] = [⟨name, goTrim value, none, 1, true⟩]
    obtain ⟨hset, hwf⟩ := builtVar_facts (n := 1) htok hname
    have hannof : annOf annStr = none := by
      unfold annOf
      rw [if_neg hann, herr]
    have hb : (!(value == []) || line.contains '=') = true := hset
    rw [builtVar]
    rw [hannof, hb]

/-- C7 witness: the line `lower=1` fails tokenization and the document
consisting of just that line parses identically to a blank line. -/
theorem claim_C7_witness :
    TokenizeLine (gs "lower=1") = .error errInvalidVariableName ∧
    parseLines ([] ++ gs "lower=1" :: []) [] = parseLines ([] ++ [] :: []) [] :=
  ⟨by decide,
    claim_C7.2.1 [] [] (gs "lower=1") [] errInvalidVariableName (by decide)⟩

theorem head?_append_left {a b : GoStr} (ha : a ≠ []) :
    (a ++ b).head? = a.head? := by
  cases a with
  | nil => exact absurd rfl ha
  | cons x t => rfl

theorem getLast?_append_right {a b : GoStr} (hb : b ≠ []) :
    (a ++ b).getLast? = b.getLast? := by
  rw [← List.head?_reverse, ← List.head?_reverse, List.reverse_append]
  exact head?_append_left (by simpa using hb)

theorem getLast?_goJoin {sep : GoStr} {ps : List GoStr} {q : GoStr} {c : Char}
    (hlast : ps.getLast? = some q) (hq : q.getLast? = some c) :
    (goJoin sep ps).getLast? = some c := by
  induction ps with
  | nil => simp at hlast
  | cons p rest ih =>
    cases rest with
    | nil =>
      simp at hlast
      subst hlast
      simpa [goJoin] using hq
    | cons y t =>
      rw [List.getLast?_cons_cons] at hlast
      have hjoin := ih hlast
      rw [goJoin]
      have hjne : goJoin sep (y :: t) ≠ [] := by
        intro h0
        rw [h0] at hjoin
        exact Option.noConfusion hjoin
      rw [getLast?_append_right hjne]
      exact hjoin

theorem typeString_roundtrip (t : VariableType) :
    ParseVariableType (goTrim (typeString t)) = t := by
  cases t <;> rfl

theorem typeString_facts (t : VariableType) :
    typeString t ≠ [] ∧ ';' ∉ typeString t ∧ goTrim (typeString t) = typeString t := by
  cases t <;> exact ⟨by decide, by decide, by decide⟩

theorem knownConstraints_cases {n : GoStr} (h : knownConstraints n = true) :
    n = gs "min" ∨ n = gs "max" ∨ n = gs "minlen" ∨ n = gs "maxlen" ∨
    n = gs "pattern" ∨ n = gs "options" ∨ n = gs "format" ∨ n = gs "encoding" := by
  rw [knownConstraints] at h
  simp only [Bool.or_eq_true, beq_iff_eq] at h
  tauto

theorem knownName_facts {n : GoStr} (h : knownConstraints n = true) :
    n ≠ [] ∧ ':' ∉ n ∧ ';' ∉ n ∧ goTrim n = n := by
  rcases knownConstraints_cases h with rfl | rfl | rfl | rfl | rfl | rfl | rfl | rfl <;>
    exact ⟨by decide, by decide, by decide, by decide⟩

theorem constraintStr_trim_fix {n v : GoStr} (hk : knownConstraints n = true)
    (hv : goTrim v = v) : goTrim (n ++ gs ":" ++ v) = n ++ gs ":" ++ v := by
  obtain ⟨hne, _, _, hfix⟩ := knownName_facts hk
  apply goTrim_eq_self
  · intro c hc
    rw [List.append_assoc, head?_append_left hne] at hc
    exact head_not_space_of_trim_fix hfix hc
  · intro c hc
    by_cases hv0 : v = []
    · subst hv0
      have hl : (n ++ gs ":" ++ ([] : GoStr)).getLast? = some ':' := by
        rw [List.append_nil]
        exact List.getLast?_concat n
      rw [hl] at hc
      injection hc with hc
      subst hc
      decide
    · rw [getLast?_append_right hv0] at hc
      exact getLast_not_space_of_trim_fix hv hc

theorem fmtParts_ne_nil (a : Annot) : fmtParts a ≠ [] := by
  rw [fmtParts]
  simp

theorem fmtParts_wf {a : Annot} (h : WFAnn a) :
    ∀ p ∈ fmtParts a, p ≠ [] ∧ ';' ∉ p ∧ goTrim p = p := by
  intro p hp
  rw [fmtParts] at hp
  simp only [List.mem_append, List.mem_singleton, List.mem_map] at hp
  rcases hp with ((hp | hp) | hp) | hp
  · subst hp
    exact typeString_facts a.Ty
  · obtain ⟨c, hc, rfl⟩ := hp
    obtain ⟨hk, hvfix, hvsemi⟩ := h.2.2.1 c hc
    obtain ⟨hne, hcolon, hsemi, hfix⟩ := knownName_facts hk
    refine ⟨?_, ?_, constraintStr_trim_fix hk hvfix⟩
    · intro h0
      rw [List.append_assoc, List.append_eq_nil] at h0
      exact hne h0.1
    simp only [List.append_assoc, List.mem_append]
    rintro (hm | hm | hm)
    · exact hsemi hm
    · revert hm
      decide
    · exact hvsemi hm
  · split at hp
    · simp at hp
      subst hp
      exact ⟨by decide, by decide, by decide⟩
    · simp at hp
  · split at hp
    · simp at hp
      subst hp
      exact ⟨by decide, by decide, by decide⟩
    · simp at hp

theorem FormatAnnot_trim_fix {a : Annot} (h : WFAnn a) :
    goTrim (FormatAnnot a) = FormatAnnot a := by
  apply goTrim_eq_self
  · intro c hc
    have hh : (FormatAnnot a).head? = some '#' := rfl
    rw [hh] at hc
    injection hc with hc
    subst hc
    decide
  · intro c hc
    obtain ⟨q, hq⟩ :=
      Option.isSome_iff_exists.mp (List.getLast?_isSome.mpr (fmtParts_ne_nil a))
    have hqmem : q ∈ fmtParts a := List.mem_of_mem_getLast? hq
    obtain ⟨hqne, _, hqfix⟩ := fmtParts_wf h q hqmem
    obtain ⟨d, hd⟩ := Option.isSome_iff_exists.mp (List.getLast?_isSome.mpr hqne)
    have hjoin : (goJoin (gs ";") (fmtParts a)).getLast? = some d := getLast?_goJoin hq hd
    have hjne : goJoin (gs ";") (fmtParts a) ≠ [] := by
      intro h0
      rw [h0] at hjoin
      exact Option.noConfusion hjoin
    have hl : (FormatAnnot a).getLast? = some d := by
      show (gs "#prompt:" ++ a.PromptText ++ gs "|" ++ goJoin (gs ";") (fmtParts a)).getLast?
        = some d
      rw [getLast?_append_right hjne]
      exact hjoin
    rw [hl] at hc
    injection hc with hc
    subst hc
    exact getLast_not_space_of_trim_fix hqfix hd

theorem stepModifier_flag_opt (a : Annot) :
    stepModifier a (gs "optional") = { a with IsOptional := true } := by
  unfold stepModifier
  dsimp only []
  rw [show goTrim (gs "optional") = gs "optional" from by decide,
      if_neg (by decide), if_pos rfl]

theorem stepModifier_flag_sec (a : Annot) :
    stepModifier a (gs "secret") = { a with IsSecret := true } := by
  unfold stepModifier
  dsimp only []
  rw [show goTrim (gs "secret") = gs "secret" from by decide,
      if_neg (by decide), if_neg (by decide), if_pos rfl]

theorem stepModifier_constraint (a : Annot) {n v : GoStr}
    (hk : knownConstraints n = true) (hv : goTrim v = v) :
    stepModifier a (n ++ gs ":" ++ v)
      = { a with Constraints := a.Constraints ++ [⟨n, v⟩] } := by
  obtain ⟨hne, hcolon, hsemi, hfix⟩ := knownName_facts hk
  have hfixall : goTrim (n ++ gs ":" ++ v) = n ++ gs ":" ++ v :=
    constraintStr_trim_fix hk hv
  have hidx : idxOfChar (n ++ gs ":" ++ v) ':' = some n.length := by
    rw [show n ++ gs ":" ++ v = n ++ ':' :: v from by
      rw [show gs ":" = [':'] from rfl]
      simp]
    exact idxOfChar_append hcolon
  have hmem : ':' ∈ n ++ gs ":" ++ v := by
    rw [List.append_assoc]
    exact List.mem_append_right _ (List.mem_append_left _ (by decide))
  unfold stepModifier
  dsimp only []
  rw [hfixall]
  rw [if_neg (show ¬(n ++ gs ":" ++ v) = [] from by
        intro h0
        rw [h0] at hmem
        simp at hmem)]
  rw [if_neg (show ¬(n ++ gs ":" ++ v) = gs "optional" from by
        intro h0
        rw [h0] at hmem
        revert hmem
        decide)]
  rw [if_neg (show ¬(n ++ gs ":" ++ v) = gs "secret" from by
        intro h0
        rw [h0] at hmem
        revert hmem
        decide)]
  rw [hidx]
  dsimp only []
  have htake : (n ++ gs ":" ++ v).take n.length = n := by
    rw [List.append_assoc]
    exact List.take_left n _
  have hdrop : (n ++ gs ":" ++ v).drop (n.length + 1) = v := by
    rw [show n.length + 1 = (n ++ gs ":").length from by
      simp [show gs ":" = [':'] from rfl]]
    exact List.drop_left _ v
  rw [htake, hdrop, hfix, hv, if_pos hk]

theorem foldl_step_over_constraints (cs : List Constraint) (a : Annot)
    (h : ∀ c ∈ cs, knownConstraints c.name = true ∧ goTrim c.value = c.value) :
    (cs.map (fun c => c.name ++ gs ":" ++ c.value)).foldl stepModifier a
      = { a with Constraints := a.Constraints ++ cs } := by
  induction cs generalizing a with
  | nil => simp
  | cons c rest ih =>
    rw [List.map_cons, List.foldl_cons,
        stepModifier_constraint a (h c (by simp)).1 (h c (by simp)).2,
        ih _ (fun d hd => h d (by simp [hd]))]
    simp

theorem foldl_step_flags (a : Annot) (o s : Bool) :
    (((if o then [gs "optional"] else []) ++ (if s then [gs "secret"] else [])).foldl
        stepModifier a)
      = { a with IsOptional := a.IsOptional || o, IsSecret := a.IsSecret || s } := by
  cases o <;> cases s <;>
    simp [stepModifier_flag_opt, stepModifier_flag_sec]

theorem annot_roundtrip {a : Annot} (h : WFAnn a) :
    ParseAnnot (FormatAnnot a) = .ok a := by
  have hfix := FormatAnnot_trim_fix h
  have hassoc : FormatAnnot a
      = gs "#prompt:" ++ (a.PromptText ++ '|' :: goJoin (gs ";") (fmtParts a)) := by
    show gs "#prompt:" ++ a.PromptText ++ gs "|" ++ goJoin (gs ";") (fmtParts a) = _
    simp [show gs "|" = ['|'] from rfl]
  have hcore : parseAnnotCore (FormatAnnot a) = .ok a := by
    unfold parseAnnotCore
    dsimp only []
    rw [hfix, hassoc]
    have hpref : goHasPref
        (gs "#prompt:" ++ (a.PromptText ++ '|' :: goJoin (gs ";") (fmtParts a)))
        (gs "#prompt:") = true := by
      rw [goHasPref, List.isPrefixOf_iff_prefix]
      exact List.prefix_append _ _
    rw [hpref, Bool.not_true, if_neg (by decide)]
    rw [List.drop_left]
    rw [idxOfChar_append h.2.1]
    dsimp only []
    have htk : (a.PromptText ++ '|' :: goJoin (gs ";") (fmtParts a)).take
        a.PromptText.length = a.PromptText :=
      List.take_left _ _
    rw [htk, h.1]
    have hdrop : (a.PromptText ++ '|' :: goJoin (gs ";") (fmtParts a)).drop
        (a.PromptText.length + 1) = goJoin (gs ";") (fmtParts a) := by
      rw [show a.PromptText ++ '|' :: goJoin (gs ";") (fmtParts a)
            = (a.PromptText ++ ['|']) ++ goJoin (gs ";") (fmtParts a) from by simp,
          show a.PromptText.length + 1 = (a.PromptText ++ ['|']).length from by simp]
      exact List.drop_left _ _
    rw [hdrop]
    have hsplit : (goJoin (gs ";") (fmtParts a)).splitOn ';' = fmtParts a := by
      rw [show gs ";" = [';'] from rfl]
      exact splitOn_goJoin (fun p hp => (fmtParts_wf h p hp).2.1) (fmtParts_ne_nil a)
    rw [hsplit]
    rw [show fmtParts a
          = typeString a.Ty ::
            (a.Constraints.map (fun c => c.name ++ gs ":" ++ c.value) ++
             ((if a.IsOptional then [gs "optional"] else []) ++
              (if a.IsSecret then [gs "secret"] else []))) from by
        rw [fmtParts]
        simp]
    dsimp only []
    rw [if_neg (by simpa using (typeString_facts a.Ty).1)]
    rw [typeString_roundtrip]
    rw [List.foldl_append]
    rw [foldl_step_over_constraints _ _ (fun c hc =>
      ⟨(h.2.2.1 c hc).1, (h.2.2.1 c hc).2.1⟩)]
    rw [foldl_step_flags]
    simp
  rw [ParseAnnot, hcore]
  have hef : enumFallback a = a := by
    unfold enumFallback
    rw [if_neg]
    rintro ⟨hty, hopt⟩
    exact h.2.2.2 hty hopt
  simp [Except.map, hef]

theorem FormatVariable_eq_none {v : Variable} (h : v.Annot = none) :
    FormatVariable v true = v.Name ++ gs "=" ++ v.Value := by
  unfold FormatVariable
  rw [h]

theorem FormatVariable_eq_some {v : Variable} {a : Annot} (h : v.Annot = some a) :
    FormatVariable v true = v.Name ++ gs "=" ++ v.Value ++ gs " " ++ FormatAnnot a := by
  unfold FormatVariable
  rw [h]

theorem goHasPref_hash_false {n rest : GoStr} (h : variableNameOk n = true) :
    goHasPref (n ++ rest) (gs "#") = false := by
  cases n with
  | nil => simp [variableNameOk] at h
  | cons a t =>
    have ha := nameOk_chars h a (by simp)
    show (gs "#").isPrefixOf (a :: (t ++ rest)) = false
    rw [show gs "#" = ['#'] from rfl]
    simp only [List.isPrefixOf, Bool.and_eq_false_iff]
    left
    simp only [beq_eq_false_iff_ne, ne_eq]
    intro h0
    subst h0
    rcases ha with ⟨h1, h2⟩ | ⟨h1, h2⟩ | h1 <;> revert h1 <;> decide

theorem FormatAnnot_ne_nil (a : Annot) : FormatAnnot a ≠ [] := by
  intro h0
  have hh : (FormatAnnot a).head? = some '#' := rfl
  rw [h0] at hh
  exact Option.noConfusion hh

theorem formatLine_trim_fix {v : Variable} (hwf : WFVar v) :
    goTrim (FormatVariable v true) = FormatVariable v true := by
  obtain ⟨hname, hvfix, hvmark, hann⟩ := hwf
  have hnne := nameOk_ne_nil hname
  apply goTrim_eq_self
  · intro c hc
    have hh : (FormatVariable v true).head? = v.Name.head? := by
      cases ha : v.Annot with
      | none =>
        rw [FormatVariable_eq_none ha, List.append_assoc]
        exact head?_append_left hnne
      | some a =>
        rw [FormatVariable_eq_some ha, List.append_assoc, List.append_assoc,
            List.append_assoc]
        exact head?_append_left hnne
    rw [hh] at hc
    exact head_not_space_of_trim_fix (nameOk_trim hname) hc
  · intro c hc
    cases ha : v.Annot with
    | none =>
      rw [FormatVariable_eq_none ha] at hc
      by_cases hv0 : v.Value = []
      · rw [hv0, List.append_nil] at hc
        rw [show v.Name ++ gs "=" = v.Name ++ ['='] from rfl,
            List.getLast?_concat] at hc
        injection hc with hc
        subst hc
        decide
      · rw [getLast?_append_right hv0] at hc
        exact getLast_not_space_of_trim_fix hvfix hc
    | some a =>
      rw [FormatVariable_eq_some ha,
          getLast?_append_right (FormatAnnot_ne_nil a)] at hc
      exact getLast_not_space_of_trim_fix (FormatAnnot_trim_fix (hann a ha)) hc

theorem idxOfSub_none_of_goContains {sub s : GoStr} (h : goContains s sub = false) :
    idxOfSub sub s = none := by
  rw [goContains] at h
  cases hx : idxOfSub sub s with
  | none => rfl
  | some i =>
    rw [hx] at h
    exact Bool.noConfusion h

theorem tokenize_format {v : Variable} (hwf : WFVar v) :
    TokenizeLine (FormatVariable v true) = .ok (v.Name, parseValue v.Value, annStrOf v) := by
  obtain ⟨hname, hvfix, hvmark, hann⟩ := hwf
  have hnne := nameOk_ne_nil hname
  have hfix := formatLine_trim_fix ⟨hname, hvfix, hvmark, hann⟩
  cases ha : v.Annot with
  | none =>
    have hshape : FormatVariable v true = v.Name ++ '=' :: v.Value := by
      rw [FormatVariable_eq_none ha, show gs "=" = ['='] from rfl]
      simp
    have htr : goTrim (FormatVariable v true) = v.Name ++ '=' :: v.Value := by
      rw [hfix, hshape]
    have h0 : goTrim (FormatVariable v true) ≠ [] := by
      rw [htr]
      simp
    have h1 : goHasPref (goTrim (FormatVariable v true)) (gs "#") = false := by
      rw [htr]
      exact goHasPref_hash_false hname
    have h2 : idxOfChar (goTrim (FormatVariable v true)) '=' = some v.Name.length := by
      rw [htr]
      exact idxOfChar_append (nameOk_ne_eq hname)
    have htake : goTrim ((goTrim (FormatVariable v true)).take v.Name.length) = v.Name := by
      rw [htr, List.take_left]
      exact nameOk_trim hname
    have h4 : variableNameOk (goTrim ((goTrim (FormatVariable v true)).take
        v.Name.length)) = true := by
      rw [htake]
      exact hname
    rw [tok_good h0 h1 h2 h4]
    dsimp only []
    rw [htake, htr]
    rw [show (v.Name ++ '=' :: v.Value).drop (v.Name.length + 1) = v.Value from by
      rw [show v.Name.length + 1 = (v.Name ++ ['=']).length from by simp,
          show v.Name ++ '=' :: v.Value = (v.Name ++ ['=']) ++ v.Value from by simp]
      exact List.drop_left _ _]
    rw [idxOfSub_none_of_goContains hvmark]
    dsimp only []
    rw [hvfix]
    unfold annStrOf
    rw [ha]
  | some a =>
    have hwfa := hann a ha
    have hshape : FormatVariable v true
        = v.Name ++ '=' :: (v.Value ++ ' ' :: FormatAnnot a) := by
      rw [FormatVariable_eq_some ha, show gs "=" = ['='] from rfl,
          show gs " " = [' '] from rfl]
      simp
    have htr : goTrim (FormatVariable v true)
        = v.Name ++ '=' :: (v.Value ++ ' ' :: FormatAnnot a) := by
      rw [hfix, hshape]
    have h0 : goTrim (FormatVariable v true) ≠ [] := by
      rw [htr]
      simp
    have h1 : goHasPref (goTrim (FormatVariable v true)) (gs "#") = false := by
      rw [htr]
      exact goHasPref_hash_false hname
    have h2 : idxOfChar (goTrim (FormatVariable v true)) '=' = some v.Name.length := by
      rw [htr]
      exact idxOfChar_append (nameOk_ne_eq hname)
    have htake : goTrim ((goTrim (FormatVariable v true)).take v.Name.length) = v.Name := by
      rw [htr, List.take_left]
      exact nameOk_trim hname
    have h4 : variableNameOk (goTrim ((goTrim (FormatVariable v true)).take
        v.Name.length)) = true := by
      rw [htake]
      exact hname
    rw [tok_good h0 h1 h2 h4]
    dsimp only []
    rw [htake, htr]
    rw [show (v.Name ++ '=' :: (v.Value ++ ' ' :: FormatAnnot a)).drop (v.Name.length + 1)
          = v.Value ++ ' ' :: FormatAnnot a from by
      rw [show v.Name.length + 1 = (v.Name ++ ['=']).length from by simp,
          show v.Name ++ '=' :: (v.Value ++ ' ' :: FormatAnnot a)
            = (v.Name ++ ['=']) ++ (v.Value ++ ' ' :: FormatAnnot a) from by simp]
      exact List.drop_left _ _]
    have hshape2 : v.Value ++ ' ' :: FormatAnnot a
        = v.Value ++ annMarker ++ (a.PromptText ++ '|' :: goJoin (gs ";") (fmtParts a)) := by
      rw [List.append_assoc]
      congr 1
      show ' ' :: FormatAnnot a = annMarker ++ _
      rw [show annMarker = ' ' :: gs "#prompt:" from rfl]
      show ' ' :: FormatAnnot a = ' ' :: (gs "#prompt:" ++ _)
      rw [show FormatAnnot a
            = gs "#prompt:" ++ (a.PromptText ++ '|' :: goJoin (gs ";") (fmtParts a)) from by
        show gs "#prompt:" ++ a.PromptText ++ gs "|" ++ goJoin (gs ";") (fmtParts a) = _
        rw [show gs "|" = ['|'] from rfl]
        simp]
    rw [hshape2]
    rw [idxOfSub_marker (by decide) hvmark (by decide)]
    dsimp only []
    rw [show (v.Value ++ annMarker ++ (a.PromptText ++ '|' :: goJoin (gs ";") (fmtParts a))).take
          v.Value.length = v.Value from by
      rw [List.append_assoc]
      exact List.take_left _ _]
    rw [hvfix]
    have hdr : (v.Value ++ annMarker
          ++ (a.PromptText ++ '|' :: goJoin (gs ";") (fmtParts a))).drop
        (v.Value.length + 1) = FormatAnnot a := by
      rw [← hshape2,
          show v.Value.length + 1 = (v.Value ++ [' ']).length from by simp,
          show v.Value ++ ' ' :: FormatAnnot a
            = (v.Value ++ [' ']) ++ FormatAnnot a from by simp,
          List.drop_left]
    rw [hdr, FormatAnnot_trim_fix hwfa]
    unfold annStrOf
    rw [ha]

theorem goJoin_head? {sep : GoStr} {p : GoStr} {ps : List GoStr} (hp : p ≠ []) :
    (goJoin sep (p :: ps)).head? = p.head? := by
  cases ps with
  | nil => rfl
  | cons y t =>
    rw [goJoin, List.append_assoc]
    exact head?_append_left hp

theorem goJoin_trim_fix {sep : GoStr} {ps : List GoStr} (hne : ps ≠ [])
    (h : ∀ p ∈ ps, p ≠ [] ∧ goTrim p = p) :
    goTrim (goJoin sep ps) = goJoin sep ps := by
  cases ps with
  | nil => exact absurd rfl hne
  | cons p t =>
    apply goTrim_eq_self
    · intro c hc
      rw [goJoin_head? (h p (by simp)).1] at hc
      exact head_not_space_of_trim_fix (h p (by simp)).2 hc
    · intro c hc
      obtain ⟨q, hq⟩ := Option.isSome_iff_exists.mp
        (List.getLast?_isSome.mpr (show p :: t ≠ [] from by simp))
      have hqmem : q ∈ p :: t := List.mem_of_mem_getLast? hq
      obtain ⟨d, hd⟩ := Option.isSome_iff_exists.mp
        (List.getLast?_isSome.mpr (h q hqmem).1)
      have hj : (goJoin sep (p :: t)).getLast? = some d := getLast?_goJoin hq hd
      rw [hj] at hc
      injection hc with hc
      subst hc
      exact getLast_not_space_of_trim_fix (h q hqmem).2 hd

theorem parseConfigLine_format {key value : GoStr}
    (hkeq : '=' ∉ key) (hkfix : goTrim key = key) (hv : goTrim value = value) :
    ParseConfigLine (FormatConfigLine key value) = (key, value) := by
  have hshape : FormatConfigLine key value = gs "#krakenv:" ++ (key ++ '=' :: value) := by
    rw [FormatConfigLine, show gs "=" = ['='] from rfl]
    simp
  have hfix : goTrim (gs "#krakenv:" ++ (key ++ '=' :: value))
      = gs "#krakenv:" ++ (key ++ '=' :: value) := by
    apply goTrim_eq_self
    · intro c hc
      have hh : (gs "#krakenv:" ++ (key ++ '=' :: value)).head? = some '#' := rfl
      rw [hh] at hc
      injection hc with hc
      subst hc
      decide
    · intro c hc
      by_cases hv0 : value = []
      · subst hv0
        rw [show gs "#krakenv:" ++ (key ++ '=' :: ([] : GoStr))
              = (gs "#krakenv:" ++ key) ++ ['='] from by simp,
            List.getLast?_concat] at hc
        injection hc with hc
        subst hc
        decide
      · rw [getLast?_append_right (show key ++ '=' :: value ≠ [] from by simp)] at hc
        rw [show key ++ '=' :: value = (key ++ ['=']) ++ value from by simp,
            getLast?_append_right hv0] at hc
        exact getLast_not_space_of_trim_fix hv hc
  unfold ParseConfigLine
  dsimp only []
  rw [hshape, hfix]
  rw [show goHasPref (gs "#krakenv:" ++ (key ++ '=' :: value)) (gs "#krakenv:") = true from by
    rw [goHasPref, List.isPrefixOf_iff_prefix]
    exact List.prefix_append _ _]
  rw [Bool.not_true, if_neg (by decide)]
  rw [List.drop_left]
  rw [idxOfChar_append hkeq]
  dsimp only []
  rw [List.take_left, hkfix]
  rw [show (key ++ '=' :: value).drop (key.length + 1) = value from by
    rw [show key.length + 1 = (key ++ ['=']).length from by simp,
        show key ++ '=' :: value = (key ++ ['=']) ++ value from by simp]
    exact List.drop_left _ _]
  rw [hv]

theorem applyConfig_envline {cfg : KrakenvConfig} {envs : List GoStr} (he : envs ≠ [])
    (hwf : ∀ e ∈ envs, goTrim e = e ∧ e ≠ [] ∧ ',' ∉ e) :
    applyConfigLine cfg (FormatConfigLine (gs "environments") (goJoin (gs ",") envs))
      = { cfg with Environments := envs } := by
  have hvfix : goTrim (goJoin (gs ",") envs) = goJoin (gs ",") envs :=
    goJoin_trim_fix he (fun p hp => ⟨(hwf p hp).2.1, (hwf p hp).1⟩)
  have hpcl := @parseConfigLine_format (gs "environments") (goJoin (gs ",") envs)
    (by decide) (by decide) hvfix
  unfold applyConfigLine
  dsimp only []
  rw [hpcl]
  dsimp only []
  rw [if_neg (by decide), if_pos rfl]
  have hsplit : (goJoin (gs ",") envs).splitOn ',' = envs := by
    rw [show gs "," = [','] from rfl]
    exact splitOn_goJoin (fun p hp => (hwf p hp).2.2) he
  rw [hsplit, envFold_eq]
  have hmap : envs.map goTrim = envs := by
    calc envs.map goTrim = envs.map id := List.map_congr_left (fun e he2 => (hwf e he2).1)
    _ = envs := List.map_id envs
  rw [hmap]
  have hfil : envs.filter (fun e => !e.isEmpty) = envs := by
    apply List.filter_eq_self.mpr
    intro e he2
    have hne := (hwf e he2).2.1
    simp [List.isEmpty_iff, hne]
  rw [hfil, List.nil_append]

theorem applyConfig_strictline (cfg : KrakenvConfig) :
    applyConfigLine cfg (FormatConfigLine (gs "strict") (gs "true"))
      = { cfg with Strict := true } := by
  have hpcl := @parseConfigLine_format (gs "strict") (gs "true")
    (by decide) (by decide) (show goTrim (gs "true") = gs "true" from by decide)
  unfold applyConfigLine
  dsimp only []
  rw [hpcl]
  dsimp only []
  rw [if_neg (by decide), if_neg (by decide), if_pos rfl]
  rw [show (gs "true" == gs "true" || gs "true" == gs "1" || gs "true" == gs "yes")
        = true from by decide]

theorem config_roundtrip {cfg : KrakenvConfig}
    (hd : cfg.DistPath = gs ".env.dist") (he : cfg.Environments ≠ [])
    (hwf : ∀ e ∈ cfg.Environments, goTrim e = e ∧ e ≠ [] ∧ ',' ∉ e) :
    ParseConfig (FormatConfig cfg) = cfg := by
  obtain ⟨envs, strict, dist⟩ := cfg
  dsimp only [] at hd he hwf ⊢
  rw [FormatConfig, if_pos he]
  dsimp only []
  cases strict with
  | false =>
    rw [if_neg (by simp)]
    rw [List.append_nil, ParseConfig, List.foldl_cons, List.foldl_nil]
    rw [applyConfig_envline he hwf]
    rw [hd]
    rfl
  | true =>
    rw [if_pos rfl]
    rw [ParseConfig, List.singleton_append, List.foldl_cons, List.foldl_cons, List.foldl_nil]
    rw [applyConfig_envline he hwf, applyConfig_strictline]
    rw [hd]
    rfl

theorem applyConfigLine_envs {cfg : KrakenvConfig} {line : GoStr}
    (h : ∀ e ∈ cfg.Environments, goTrim e = e ∧ e ≠ [] ∧ ',' ∉ e) :
    ∀ e ∈ (applyConfigLine cfg line).Environments,
      goTrim e = e ∧ e ≠ [] ∧ ',' ∉ e := by
  unfold applyConfigLine
  dsimp only []
  split
  · exact h
  split
  · rw [envFold_eq]
    intro e he
    simp only [List.nil_append, List.mem_filter, List.mem_map] at he
    obtain ⟨⟨x, hx, rfl⟩, hne⟩ := he
    refine ⟨goTrim_idem x, ?_, ?_⟩
    · intro h0
      rw [h0] at hne
      simp at hne
    · intro hm
      exact splitOn_pieces x hx (goTrim_subset hm)
  split
  · exact h
  split
  · split
    · exact h
    · exact h
  · exact h

theorem parseConfig_envs (lines : List GoStr) :
    ∀ e ∈ (ParseConfig lines).Environments, goTrim e = e ∧ e ≠ [] ∧ ',' ∉ e := by
  rw [ParseConfig]
  have key : ∀ (cfg : KrakenvConfig),
      (∀ e ∈ cfg.Environments, goTrim e = e ∧ e ≠ [] ∧ ',' ∉ e) →
      ∀ e ∈ (lines.foldl applyConfigLine cfg).Environments,
        goTrim e = e ∧ e ≠ [] ∧ ',' ∉ e := by
    induction lines with
    | nil => exact fun cfg h => h
    | cons l t ih =>
      intro cfg h
      rw [List.foldl_cons]
      exact ih _ (applyConfigLine_envs h)
  exact key DefaultConfig (by decide)

theorem annOf_annStrOf {v : Variable} (hwf : WFVar v) : annOf (annStrOf v) = v.Annot := by
  cases ha : v.Annot with
  | none =>
    unfold annStrOf
    rw [ha]
    rfl
  | some a =>
    unfold annStrOf
    rw [ha]
    unfold annOf
    rw [if_neg (FormatAnnot_ne_nil a), annot_roundtrip (hwf.2.2.2 a ha)]

theorem processAux_configLines {cls : List GoStr} (h : ∀ l ∈ cls, IsConfigLine l = true) :
    ∀ (n : Nat) (st : PState),
    processAux cls n st = { st with configLines := st.configLines ++ cls } := by
  induction cls with
  | nil =>
    intro n st
    simp [processAux]
  | cons l t ih =>
    intro n st
    rw [show processAux (l :: t) n st
          = processAux t (n + 1) (processLine st l (n + 1)) from rfl]
    rw [pl_config (h l (by simp))]
    rw [ih (fun x hx => h x (by simp [hx]))]
    simp

theorem formatConfigLine_trim_fix {key value : GoStr} (hv : goTrim value = value) :
    goTrim (FormatConfigLine key value) = FormatConfigLine key value := by
  rw [show FormatConfigLine key value = gs "#krakenv:" ++ (key ++ '=' :: value) from by
    rw [FormatConfigLine, show gs "=" = ['='] from rfl]
    simp]
  apply goTrim_eq_self
  · intro c hc
    have hh : (gs "#krakenv:" ++ (key ++ '=' :: value)).head? = some '#' := rfl
    rw [hh] at hc
    injection hc with hc
    subst hc
    decide
  · intro c hc
    by_cases hv0 : value = []
    · subst hv0
      rw [show gs "#krakenv:" ++ (key ++ '=' :: ([] : GoStr))
            = (gs "#krakenv:" ++ key) ++ ['='] from by simp,
          List.getLast?_concat] at hc
      injection hc with hc
      subst hc
      decide
    · rw [getLast?_append_right (show key ++ '=' :: value ≠ [] from by simp)] at hc
      rw [show key ++ '=' :: value = (key ++ ['=']) ++ value from by simp,
          getLast?_append_right hv0] at hc
      exact getLast_not_space_of_trim_fix hv hc

theorem formatConfigLine_isConfig {key value : GoStr} (hv : goTrim value = value) :
    IsConfigLine (FormatConfigLine key value) = true := by
  rw [IsConfigLine, formatConfigLine_trim_fix hv]
  rw [show FormatConfigLine key value = gs "#krakenv:" ++ (key ++ '=' :: value) from by
    rw [FormatConfigLine, show gs "=" = ['='] from rfl]
    simp]
  rw [goHasPref, List.isPrefixOf_iff_prefix]
  exact List.prefix_append _ _

theorem formatConfig_all_config {cfg : KrakenvConfig}
    (hwf : ∀ e ∈ cfg.Environments, goTrim e = e ∧ e ≠ [] ∧ ',' ∉ e) :
    ∀ l ∈ FormatConfig cfg, IsConfigLine l = true := by
  intro l hl
  rw [FormatConfig] at hl
  rcases List.mem_append.mp hl with hm | hm
  · split at hm
    · rename_i hne
      rw [List.mem_singleton] at hm
      subst hm
      exact formatConfigLine_isConfig
        (goJoin_trim_fix hne (fun p hp => ⟨(hwf p hp).2.1, (hwf p hp).1⟩))
    · simp at hm
  · split at hm
    · rw [List.mem_singleton] at hm
      subst hm
      exact formatConfigLine_isConfig (by decide)
    · simp at hm

theorem formatConfig_ne_nil {cfg : KrakenvConfig} (he : cfg.Environments ≠ []) :
    FormatConfig cfg ≠ [] := by
  rw [FormatConfig, if_pos he]
  simp

theorem processAux_vars (vs : List Variable) :
    ∀ (n : Nat) (st : PState), PInv st →
    (∀ v ∈ vs, WFVar v) →
    (∀ v ∈ vs, parseValue v.Value = v.Value) →
    (∀ v ∈ vs, findName st.Variables v.Name = none) →
    (vs.map Variable.Name).Nodup →
    (processAux (vs.map (fun v => FormatVariable v true)) n st).Variables.map varData
        = st.Variables.map varData ++ vs.map varData ∧
      (processAux (vs.map (fun v => FormatVariable v true)) n st).configLines
        = st.configLines := by
  induction vs with
  | nil =>
    intro n st _ _ _ _ _
    simp [processAux]
  | cons v rest ih =>
    intro n st hinv hwf hpv hfresh hnd
    have hwfv := hwf v (by simp)
    have hnne := nameOk_ne_nil hwfv.1
    have htok := tokenize_format hwfv
    obtain ⟨hcfg, hcom, hemp⟩ := tokenize_ok_classify htok hnne
    have hlook : lookupPos st.varPositions v.Name = none := by
      rw [hinv.1]
      exact hfresh v (by simp)
    have hinv2 : PInv (processLine st (FormatVariable v true) (n + 1)) :=
      processLine_inv hinv
    have hpl : processLine st (FormatVariable v true) (n + 1)
        = { st with
            varPositions := st.varPositions ++ [(v.Name, st.Variables.length)]
            Variables := st.Variables
              ++ [builtVar (FormatVariable v true) v.Name (parseValue v.Value)
                    (annStrOf v) (n + 1)] } := by
      rw [pl_ok hcfg hcom hemp htok hnne, hlook]
    rw [hpl] at hinv2
    have hbvdata : varData (builtVar (FormatVariable v true) v.Name (parseValue v.Value)
        (annStrOf v) (n + 1)) = varData v := by
      rw [varData, builtVar]
      dsimp only []
      rw [hpv v (by simp), hwfv.2.1, annOf_annStrOf hwfv]
      rfl
    have hnd2 := List.nodup_cons.mp hnd
    have hstep := ih (n + 1)
      { st with
        varPositions := st.varPositions ++ [(v.Name, st.Variables.length)]
        Variables := st.Variables
          ++ [builtVar (FormatVariable v true) v.Name (parseValue v.Value)
                (annStrOf v) (n + 1)] }
      hinv2
      (fun w hw => hwf w (by simp [hw]))
      (fun w hw => hpv w (by simp [hw]))
      (fun w hw => by
        dsimp only []
        rw [findName_append, hfresh w (by simp [hw])]
        rw [show findName [builtVar (FormatVariable v true) v.Name (parseValue v.Value)
              (annStrOf v) (n + 1)] w.Name = none from by
          rw [findName]
          rw [if_neg (show ¬(builtVar (FormatVariable v true) v.Name (parseValue v.Value)
                (annStrOf v) (n + 1)).Name = w.Name from by
            intro h0
            exact hnd2.1 (h0 ▸ List.mem_map_of_mem Variable.Name hw))]
          rfl]
        rfl)
      hnd2.2
    rw [List.map_cons,
        show processAux (FormatVariable v true :: rest.map (fun v => FormatVariable v true)) n st
          = processAux (rest.map (fun v => FormatVariable v true)) (n + 1)
              (processLine st (FormatVariable v true) (n + 1)) from rfl,
        hpl]
    refine ⟨?_, ?_⟩
    · rw [hstep.1]
      dsimp only []
      rw [List.map_append]
      simp [hbvdata]
    · exact hstep.2

/-- C4 (amended): round-trip idempotence for parsed documents whose
variable values are fixed points of `parseValue` (no quote layer left to
re-strip) and whose config, if present, carries the default dist path
and a non-empty environments list: serializing the document (config
lines, then each variable via `FormatVariable` with annotations kept)
and parsing the result yields an equivalent document — same variable
names, values and annotations in the same order, and the same config.
The side conditions cannot be dropped: `FormatConfig` never emits
`distPath` (see the counterexample). -/
theorem claim_C4 (lines : List GoStr) (path : GoStr)
    (hval : ∀ v ∈ (parseLines lines path).Variables, parseValue v.Value = v.Value)
    (hcfg : ∀ cfg, (parseLines lines path).Config = some cfg →
      cfg.DistPath = gs ".env.dist" ∧ cfg.Environments ≠ []) :
    docEquiv (parseLines (serializeLines (parseLines lines path)) path)
      (parseLines lines path) := by
  obtain ⟨st, hst, hinv, heq⟩ := parseLines_inv lines path
  rw [heq] at hval hcfg ⊢
  dsimp only [] at hval hcfg
  have hinv0 : PInv (⟨[], [], [], []⟩ : PState) := ⟨fun n => rfl, by simp, by simp⟩
  by_cases hc : st.configLines = []
  · rw [if_pos hc] at hcfg ⊢
    rw [show serializeLines { Path := path, Variables := st.Variables,
                              Comments := st.Comments, Config := none }
          = st.Variables.map (fun v => FormatVariable v true) from by
      rw [serializeLines]
      dsimp only []
      rw [List.nil_append]]
    obtain ⟨st2, hst2, hinv2x, heq2⟩ :=
      parseLines_inv (st.Variables.map (fun v => FormatVariable v true)) path
    rw [heq2]
    obtain ⟨hv1, hv2⟩ := processAux_vars st.Variables 0 ⟨[], [], [], []⟩ hinv0
      (fun v hv => (hinv.2.2 v hv).2) hval (fun v hv => rfl) hinv.2.1
    rw [hst2] at hv1 hv2
    rw [docEquiv]
    dsimp only []
    refine ⟨?_, ?_⟩
    · rw [hv1]
      rfl
    · rw [hv2, if_pos rfl]
  · rw [if_neg hc] at hcfg ⊢
    obtain ⟨hd, he⟩ := hcfg (ParseConfig st.configLines) rfl
    have henvwf := parseConfig_envs st.configLines
    rw [show serializeLines { Path := path, Variables := st.Variables,
                              Comments := st.Comments,
                              Config := some (ParseConfig st.configLines) }
          = FormatConfig (ParseConfig st.configLines)
            ++ st.Variables.map (fun v => FormatVariable v true) from by
      rw [serializeLines]]
    obtain ⟨st2, hst2, hinv2x, heq2⟩ :=
      parseLines_inv (FormatConfig (ParseConfig st.configLines)
        ++ st.Variables.map (fun v => FormatVariable v true)) path
    rw [heq2]
    rw [processAux_append] at hst2
    rw [show processAux (FormatConfig (ParseConfig st.configLines)) 0 ⟨[], [], [], []⟩
          = (⟨[], [], FormatConfig (ParseConfig st.configLines), []⟩ : PState) from by
      rw [processAux_configLines (formatConfig_all_config henvwf)]
      rfl] at hst2
    have hinv1 : PInv (⟨[], [], FormatConfig (ParseConfig st.configLines), []⟩ : PState) :=
      ⟨fun n => rfl, by simp, by simp⟩
    obtain ⟨hv1, hv2⟩ := processAux_vars st.Variables
      (0 + (FormatConfig (ParseConfig st.configLines)).length)
      ⟨[], [], FormatConfig (ParseConfig st.configLines), []⟩ hinv1
      (fun v hv => (hinv.2.2 v hv).2) hval (fun v hv => rfl) hinv.2.1
    rw [hst2] at hv1 hv2
    rw [docEquiv]
    dsimp only []
    refine ⟨?_, ?_⟩
    · rw [hv1]
      rfl
    · rw [hv2, if_neg (formatConfig_ne_nil he),
          config_roundtrip hd he henvwf]

/-- C4 counterexample: the document consisting of the single line
`#krakenv:distPath=custom` does not round-trip — `FormatConfig` never
emits `distPath` and emits the default environments instead, so the
reparsed config differs from the original. -/
theorem claim_C4_cex :
    ¬ docEquiv
      (parseLines (serializeLines (parseLines [gs "#krakenv:distPath=custom"] [])) [])
      (parseLines [gs "#krakenv:distPath=custom"] []) := by
  decide

/-- C4 witness: a document with a two-environment config and an
annotated variable satisfies the side conditions and round-trips. -/
theorem claim_C4_witness :
    docEquiv
      (parseLines (serializeLines (parseLines
        [gs "#krakenv:environments=dev,prod", gs "A=1 #prompt:Api key|string;optional"] [])) [])
      (parseLines
        [gs "#krakenv:environments=dev,prod", gs "A=1 #prompt:Api key|string;optional"] []) :=
  claim_C4 [gs "#krakenv:environments=dev,prod", gs "A=1 #prompt:Api key|string;optional"] []
    (by decide) (by decide)

end Krakenv
